import Mathlib

/-!
Shallow embedding of the Alfred service core (Store policy projection,
coalesced-save scheduler, WebSocket session dispatch, HTTP resource glue),
translated from `Store.cpp`, `ApiWs.cpp` and `ApiHttp.cpp`, together with
proofs about the embedded definitions.
-/

set_option maxHeartbeats 1000000
set_option linter.unusedVariables false
set_option linter.unreachableTactic false
set_option linter.unnecessarySeqFocus false
set_option linter.unusedTactic false

namespace Alfred

/-- The JSON value model used by the Store (`Json::Value` from the JSON
library).  `invalid` is the sentinel `Json::Value::Type::Invalid`, returned
for missing object members and used by the projection as the
"redacted/invalid" marker.  Numbers are modelled as integers (their value is
opaque to every property proved here); object member lists are kept in their
iteration order. -/
inductive Json where
  | invalid
  | null
  | boolean (b : Bool)
  | number (n : Int)
  | string (s : String)
  | array (elems : List Json)
  | object (members : List (String × Json))
deriving Repr

namespace Json

mutual

/-- Boolean structural equality of JSON values. -/
def beq : Json → Json → Bool
  | invalid, invalid => true
  | null, null => true
  | boolean a, boolean b => a == b
  | number a, number b => a == b
  | string a, string b => a == b
  | array xs, array ys => beqList xs ys
  | object xs, object ys => beqMembers xs ys
  | _, _ => false

/-- Boolean equality of JSON arrays, element by element. -/
def beqList : List Json → List Json → Bool
  | [], [] => true
  | x :: xs, y :: ys => beq x y && beqList xs ys
  | _, _ => false

/-- Boolean equality of JSON object member lists, member by member. -/
def beqMembers : List (String × Json) → List (String × Json) → Bool
  | [], [] => true
  | (k, v) :: xs, (l, w) :: ys => k == l && beq v w && beqMembers xs ys
  | _, _ => false

end

end Json

mutual

theorem Json.beq_iff : ∀ a b : Json, (Json.beq a b = true) ↔ a = b
  | .invalid, b => by cases b <;> simp [Json.beq]
  | .null, b => by cases b <;> simp [Json.beq]
  | .boolean a, b => by cases b <;> simp [Json.beq]
  | .number a, b => by cases b <;> simp [Json.beq]
  | .string a, b => by cases b <;> simp [Json.beq]
  | .array xs, b => by
      cases b <;> simp [Json.beq]
      exact Json.beqList_iff xs _
  | .object xs, b => by
      cases b <;> simp [Json.beq]
      exact Json.beqMembers_iff xs _

theorem Json.beqList_iff : ∀ xs ys : List Json, (Json.beqList xs ys = true) ↔ xs = ys
  | [], [] => by simp [Json.beqList]
  | [], _ :: _ => by simp [Json.beqList]
  | _ :: _, [] => by simp [Json.beqList]
  | x :: xs, y :: ys => by
      simp [Json.beqList, Json.beq_iff x y, Json.beqList_iff xs ys]

theorem Json.beqMembers_iff :
    ∀ xs ys : List (String × Json), (Json.beqMembers xs ys = true) ↔ xs = ys
  | [], [] => by simp [Json.beqMembers]
  | [], _ :: _ => by simp [Json.beqMembers]
  | _ :: _, [] => by simp [Json.beqMembers]
  | (k, v) :: xs, (l, w) :: ys => by
      simp [Json.beqMembers, Json.beq_iff v w, Json.beqMembers_iff xs ys]
      try tauto

end

instance : DecidableEq Json := fun a b => decidable_of_iff _ (Json.beq_iff a b)

namespace Json

/-- Member lookup in a JSON object member list (first match). -/
def findMember : List (String × Json) → String → Option Json
  | [], _ => none
  | (k, v) :: rest, key => if k = key then some v else findMember rest key

/-- `Json::Value::Has`: true iff the value is an object with the given key. -/
def has (j : Json) (key : String) : Bool :=
  match j with
  | object members => (findMember members key).isSome
  | _ => false

/-- `Json::Value::operator[]` (read): member access, yielding the `Invalid`
value when the key is missing or the value is not an object. -/
def get (j : Json) (key : String) : Json :=
  match j with
  | object members =>
      match findMember members key with
      | some v => v
      | none => invalid
  | _ => invalid

/-- `GetType() == Invalid`. -/
def isInvalid (j : Json) : Bool :=
  match j with
  | invalid => true
  | _ => false

/-- Cast of a JSON value to `std::string` (non-strings cast to `""`). -/
def asString (j : Json) : String :=
  match j with
  | string s => s
  | _ => ""

/-- Cast of a JSON value to a number (non-numbers cast to `0`). -/
def asInt (j : Json) : Int :=
  match j with
  | number n => n
  | _ => 0

theorem sizeOf_lt_of_mem {e : Json} {es : List Json} (h : e ∈ es) :
    sizeOf e < sizeOf es := by
  induction es with
  | nil => cases h
  | cons x xs ih =>
      rcases List.mem_cons.mp h with rfl | h
      · simp
        omega
      · have := ih h
        simp
        omega

theorem sizeOf_snd_lt_of_mem {kv : String × Json} {l : List (String × Json)}
    (h : kv ∈ l) : sizeOf kv.2 < sizeOf l := by
  obtain ⟨k, v⟩ := kv
  induction l with
  | nil => cases h
  | cons x xs ih =>
      rcases List.mem_cons.mp h with rfl | h
      · simp
        omega
      · have hlt : sizeOf v < sizeOf xs := by simpa using ih h
        simp
        omega

theorem mem_of_findMember {l : List (String × Json)} {key : String} {v : Json}
    (h : findMember l key = some v) : (key, v) ∈ l := by
  induction l with
  | nil => simp [findMember] at h
  | cons kv rest ih =>
      obtain ⟨k, w⟩ := kv
      rw [findMember] at h
      split at h
      · injection h with h
        subst h
        simp_all
      · exact List.mem_cons_of_mem _ (ih h)

theorem sizeOf_findMember {l : List (String × Json)} {key : String} {v : Json}
    (h : findMember l key = some v) : sizeOf v < sizeOf l := by
  have hm := mem_of_findMember h
  have := sizeOf_snd_lt_of_mem hm
  simpa using this

theorem sizeOf_get_lt {j : Json} {key : String} (h : j.has key = true) :
    sizeOf (j.get key) < sizeOf j := by
  cases j <;> simp [has] at h
  rename_i members
  rw [Option.isSome_iff_exists] at h
  obtain ⟨v, hv⟩ := h
  simp only [get, hv]
  have := sizeOf_findMember hv
  simp
  omega

theorem sizeOf_list_pos (l : List (String × Json)) : 1 ≤ sizeOf l := by
  cases l with
  | nil => simp
  | cons a t => simp
                omega

theorem sizeOf_get_lt_of_has {j : Json} {key : String} (h : j.has key = true)
    (key2 : String) : sizeOf (j.get key2) < sizeOf j := by
  cases j <;> simp [has] at h
  rename_i members
  cases hv : findMember members key2 with
  | some v =>
      simp only [get, hv]
      have := sizeOf_findMember hv
      simp
      omega
  | none =>
      simp only [get, hv]
      have := sizeOf_list_pos members
      simp
      omega

/-- Induction over JSON trees giving the inductive hypothesis at every array
element and every object member value. -/
theorem inductionOn (P : Json → Prop)
    (hinv : P invalid) (hnull : P null)
    (hbool : ∀ b, P (boolean b)) (hnum : ∀ n, P (number n))
    (hstr : ∀ s, P (string s))
    (harr : ∀ es, (∀ e ∈ es, P e) → P (array es))
    (hobj : ∀ l, (∀ kv ∈ l, P kv.2) → P (object l)) :
    ∀ j, P j
  | invalid => hinv
  | null => hnull
  | boolean b => hbool b
  | number n => hnum n
  | string s => hstr s
  | array es =>
      harr es (fun e he =>
        inductionOn P hinv hnull hbool hnum hstr harr hobj e)
  | object l =>
      hobj l (fun kv hkv =>
        inductionOn P hinv hnull hbool hnum hstr harr hobj kv.2)
termination_by j => sizeOf j
decreasing_by
  · exact Nat.lt_trans (sizeOf_lt_of_mem he) (by simp)
  · exact Nat.lt_trans (sizeOf_snd_lt_of_mem hkv) (by simp)

end Json

/-! ## Store policy engine (`Store.cpp`, policy-aware revision) -/

/-- A role set (`std::unordered_set<std::string>`). -/
abbrev RoleSet := Finset String

/-- `AddRoles`: insert every entry of a JSON array of role names into a role
set; a non-array argument is ignored.  (Entries are cast to `std::string`.) -/
def AddRoles (rolesSet : RoleSet) (rolesArray : Json) : RoleSet :=
  match rolesArray with
  | .array entries => entries.foldl (fun acc entry => insert entry.asString acc) rolesSet
  | _ => rolesSet

/-- The `RolesPermitted` tuple: one role set per operation.  All sets start
empty (default-constructed `unordered_set`s). -/
structure RolesPermitted where
  readData : RoleSet := ∅
  readMeta : RoleSet := ∅
  writeData : RoleSet := ∅
  writeMeta : RoleSet := ∅
  createData : RoleSet := ∅
  deleteData : RoleSet := ∅
deriving DecidableEq

/-- `RolePermitted`: an empty held set passes every check; otherwise some
permitted role must be held. -/
def rolePermitted (rolesPermitted rolesHeld : RoleSet) : Bool :=
  if rolesHeld = ∅ then true
  else decide (∃ r ∈ rolesPermitted, r ∈ rolesHeld)

/-- `UpdateRoles`: fold one policy node's `meta` descriptor into the
accumulated `RolesPermitted`.  `require.K` replaces, `allow.K` unions;
`allow.write_*` additionally unions into the corresponding read set.
Note: the source reads `require["create"]`, `require["delete"]`,
`allow["create"]` and `allow["delete"]` (not the `_data`-suffixed keys it
tested for); this translation preserves that behavior. -/
def updateRoles (rolesPermitted : RolesPermitted) (meta : Json) : RolesPermitted :=
  let rp := rolesPermitted
  let rp :=
    if meta.has "require" then
      let req := meta.get "require"
      let rp := if req.has "read_data" then
        { rp with readData := AddRoles ∅ (req.get "read_data") } else rp
      let rp := if req.has "read_meta" then
        { rp with readMeta := AddRoles ∅ (req.get "read_meta") } else rp
      let rp := if req.has "write_data" then
        { rp with writeData := AddRoles ∅ (req.get "write_data") } else rp
      let rp := if req.has "write_meta" then
        { rp with writeMeta := AddRoles ∅ (req.get "write_meta") } else rp
      let rp := if req.has "create_data" then
        { rp with createData := AddRoles ∅ (req.get "create") } else rp
      let rp := if req.has "delete_data" then
        { rp with deleteData := AddRoles ∅ (req.get "delete") } else rp
      rp
    else rp
  if meta.has "allow" then
    let alw := meta.get "allow"
    let rp := if alw.has "read_data" then
      { rp with readData := AddRoles rp.readData (alw.get "read_data") } else rp
    let rp := if alw.has "read_meta" then
      { rp with readMeta := AddRoles rp.readMeta (alw.get "read_meta") } else rp
    let rp := if alw.has "write_data" then
      { rp with readData := AddRoles rp.readData (alw.get "write_data"),
                writeData := AddRoles rp.writeData (alw.get "write_data") } else rp
    let rp := if alw.has "write_meta" then
      { rp with readMeta := AddRoles rp.readMeta (alw.get "write_meta"),
                writeMeta := AddRoles rp.writeMeta (alw.get "write_meta") } else rp
    let rp := if alw.has "create_data" then
      { rp with createData := AddRoles rp.createData (alw.get "create") } else rp
    let rp := if alw.has "delete_data" then
      { rp with deleteData := AddRoles rp.deleteData (alw.get "delete") } else rp
    rp
  else rp

/-- `DescendTree` (policy-aware): walk the path, stepping transparently
through `data` wrappers while folding each wrapper's `meta` into the
accumulated `RolesPermitted`. -/
def descendTree (rolesPermitted : RolesPermitted) (root : Json)
    (path : List String) : RolesPermitted × Json :=
  match path with
  | [] => (rolesPermitted, root)
  | key :: rest =>
      if root.has "data" then
        descendTree (updateRoles rolesPermitted (root.get "meta"))
          ((root.get "data").get key) rest
      else
        descendTree rolesPermitted (root.get key) rest

mutual

/-- `ExtractData` (policy-aware): at a policy node (an object with a `data`
member), fold its `meta` into the permitted roles; if `read_meta` is
permitted, emit a `{data, meta}` wrapper of the two projections, otherwise
emit the `data` projection bare.  Non-policy nodes project via
`extractDataNoMeta`. -/
def extractData (rolesPermitted : RolesPermitted) (root : Json)
    (rolesHeld : RoleSet) : Json :=
  if h : root.has "data" = true then
    let innerRolesPermitted := updateRoles rolesPermitted (root.get "meta")
    if rolePermitted innerRolesPermitted.readMeta rolesHeld then
      .object [
        ("data", extractDataNoMeta innerRolesPermitted (root.get "data") rolesHeld),
        ("meta", extractDataNoMeta innerRolesPermitted (root.get "meta") rolesHeld)]
    else
      extractDataNoMeta innerRolesPermitted (root.get "data") rolesHeld
  else
    extractDataNoMeta rolesPermitted root rolesHeld
termination_by (sizeOf root, 1)
decreasing_by
  · exact Prod.Lex.left _ _ (Json.sizeOf_get_lt h)
  · exact Prod.Lex.left _ _ (Json.sizeOf_get_lt_of_has h "meta")
  · exact Prod.Lex.left _ _ (Json.sizeOf_get_lt h)
  · exact Prod.Lex.right _ (by omega)

/-- `ExtractDataNoMeta`: arrays require `read_data` and drop invalid
entries; objects keep the members whose projection is valid and are emitted
when `read_data` is permitted or some member survived; scalars require
`read_data`. -/
def extractDataNoMeta (rolesPermitted : RolesPermitted) (root : Json)
    (rolesHeld : RoleSet) : Json :=
  match root with
  | .array elems =>
      if rolePermitted rolesPermitted.readData rolesHeld then
        .array (extractElements rolesPermitted elems rolesHeld)
      else .invalid
  | .object members =>
      let data := extractMembers rolesPermitted members rolesHeld
      if rolePermitted rolesPermitted.readData rolesHeld || !data.isEmpty then
        .object data
      else .invalid
  | _ =>
      if rolePermitted rolesPermitted.readData rolesHeld then root else .invalid
termination_by (sizeOf root, 0)
decreasing_by
  · exact Prod.Lex.left _ _ (by simp <;> omega)
  · exact Prod.Lex.left _ _ (by simp <;> omega)

/-- The array-entry loop of `ExtractDataNoMeta`. -/
def extractElements (rolesPermitted : RolesPermitted) (elems : List Json)
    (rolesHeld : RoleSet) : List Json :=
  match elems with
  | [] => []
  | e :: rest =>
      let element := extractData rolesPermitted e rolesHeld
      let restOut := extractElements rolesPermitted rest rolesHeld
      if element.isInvalid then restOut else element :: restOut
termination_by (sizeOf elems, 0)
decreasing_by
  · exact Prod.Lex.left _ _ (by simp <;> omega)
  · exact Prod.Lex.left _ _ (by simp <;> omega)

/-- The object-member loop of `ExtractDataNoMeta`. -/
def extractMembers (rolesPermitted : RolesPermitted)
    (members : List (String × Json)) (rolesHeld : RoleSet) :
    List (String × Json) :=
  match members with
  | [] => []
  | (k, v) :: rest =>
      let element := extractData rolesPermitted v rolesHeld
      let restOut := extractMembers rolesPermitted rest rolesHeld
      if element.isInvalid then restOut else (k, element) :: restOut
termination_by (sizeOf members, 0)
decreasing_by
  · exact Prod.Lex.left _ _ (by simp <;> omega)
  · exact Prod.Lex.left _ _ (by simp <;> omega)

end

/-- `Store::Impl::GetData` (policy-aware): descend with accumulated policy,
project, and map the `Invalid` sentinel to JSON `null` at the boundary. -/
def getData (store : Json) (path : List String) (rolesHeld : RoleSet) : Json :=
  let pr := descendTree {} store path
  let data := extractData pr.1 pr.2 rolesHeld
  if data.isInvalid then Json.null else data

/-- The raw (unprojected) subtree of a document at a path: what the
policy-aware `DescendTree` reaches, ignoring the accumulated roles. -/
def subtreeAt (store : Json) (path : List String) : Json :=
  (descendTree {} store path).2

/-! ## Structural subset of projections

`sub x y` says every leaf emitted in projection `x` is present in
projection `y`: scalars must match exactly, object members are matched by
key, array entries embed as an order-preserving subsequence (redacted
entries are dropped from emitted arrays, shifting later indices), the
`invalid` sentinel has no content and is below everything, and a leaf that
`x` emitted bare may sit inside a `{data, meta}` policy wrapper that `y`
emitted around the same position. -/

mutual

/-- Structural subset of projected JSON values (see above). -/
def sub (x y : Json) : Bool :=
  subMain x y || subWrap x y
termination_by (sizeOf x + sizeOf y, 1)
decreasing_by
  · exact Prod.Lex.right _ (by omega)
  · exact Prod.Lex.right _ (by omega)

/-- Same-constructor part of the structural-subset check. -/
def subMain : Json → Json → Bool
  | .invalid, _ => true
  | .null, .null => true
  | .boolean a, .boolean b => a == b
  | .number a, .number b => a == b
  | .string a, .string b => a == b
  | .array xs, .array ys => subList xs ys
  | .object xs, .object ys => subMembers xs ys
  | _, _ => false
termination_by x y => (sizeOf x + sizeOf y, 0)
decreasing_by
  · exact Prod.Lex.left _ _ (by simp <;> omega)
  · exact Prod.Lex.left _ _ (by simp <;> omega)

/-- Policy-wrapper transparency: `x` matches inside the `data` branch of a
`{data, meta}` wrapper emitted by the richer projection. -/
def subWrap (x y : Json) : Bool :=
  match y with
  | .object [("data", d), ("meta", _)] => sub x d
  | _ => false
termination_by (sizeOf x + sizeOf y, 0)
decreasing_by
  · exact Prod.Lex.left _ _ (by simp <;> omega)

/-- Arrays embed as an order-preserving subsequence. -/
def subList : List Json → List Json → Bool
  | [], _ => true
  | _ :: _, [] => false
  | x :: xs, y :: ys => (sub x y && subList xs ys) || subList (x :: xs) ys
termination_by xs ys => (sizeOf xs + sizeOf ys, 0)
decreasing_by
  · exact Prod.Lex.left _ _ (by simp <;> omega)
  · exact Prod.Lex.left _ _ (by simp <;> omega)
  · exact Prod.Lex.left _ _ (by simp <;> omega)

/-- Does `v` match (by `sub`) the value that `ys` carries at key `k`? -/
def subAtKey (ys : List (String × Json)) (k : String) (v : Json) : Bool :=
  match _h : Json.findMember ys k with
  | some w => sub v w
  | none => false
termination_by (sizeOf v + sizeOf ys, 0)
decreasing_by
  · exact Prod.Lex.left _ _ (by have := Json.sizeOf_findMember _h; omega)

/-- Every non-invalid member of `xs` must appear (by key) in `ys` with a
superset value. -/
def subMembers (xs ys : List (String × Json)) : Bool :=
  match xs with
  | [] => true
  | (k, v) :: rest => (v.isInvalid || subAtKey ys k v) && subMembers rest ys
termination_by (sizeOf xs + sizeOf ys, 0)
decreasing_by
  · exact Prod.Lex.left _ _ (by simp <;> omega)
  · exact Prod.Lex.left _ _ (by simp <;> omega)

end

/-! ## Well-formedness predicates on documents -/

mutual

/-- A well-formed document: no `invalid` values, and every policy node (an
object carrying a `data` member) consists of exactly the two members
`data` and `meta`, in that order. -/
def wf : Json → Bool
  | .invalid => false
  | .null => true
  | .boolean _ => true
  | .number _ => true
  | .string _ => true
  | .array es => wfElements es
  | .object l =>
      if (Json.findMember l "data").isSome then wfPolicyPair l
      else wfMembers l

/-- Shape check for a well-formed policy node's member list. -/
def wfPolicyPair : List (String × Json) → Bool
  | [(k1, d), (k2, m)] => k1 == "data" && k2 == "meta" && wf d && wf m
  | _ => false

/-- All array elements well-formed. -/
def wfElements : List Json → Bool
  | [] => true
  | e :: rest => wf e && wfElements rest

/-- All object member values well-formed. -/
def wfMembers : List (String × Json) → Bool
  | [] => true
  | (_, v) :: rest => wf v && wfMembers rest

end

mutual

/-- No object anywhere in the tree has duplicate member keys (a faithfulness
condition: C++ `Json::Value` objects are maps and cannot repeat a key). -/
def nodupKeys : Json → Bool
  | .array es => nodupKeysElements es
  | .object l => decide (l.map Prod.fst).Nodup && nodupKeysMembers l
  | _ => true

/-- `nodupKeys` over array elements. -/
def nodupKeysElements : List Json → Bool
  | [] => true
  | e :: rest => nodupKeys e && nodupKeysElements rest

/-- `nodupKeys` over object member values. -/
def nodupKeysMembers : List (String × Json) → Bool
  | [] => true
  | (_, v) :: rest => nodupKeys v && nodupKeysMembers rest

end

/-! ## Legacy single-argument Store read path (first revision of
`Store.cpp`, still used by the WebSocket client via `store->GetData(...)`) -/

/-- Legacy `DescendTree`: step through `data` wrappers with no role
tracking.  The dot-separated path string of the source is modelled as the
list of its keys. -/
def descendTreePlain (root : Json) (path : List String) : Json :=
  match path with
  | [] => root
  | key :: rest =>
      if root.has "data" then
        descendTreePlain ((root.get "data").get key) rest
      else
        descendTreePlain (root.get key) rest

mutual

/-- Legacy `ExtractData`: strip every `{data, meta}` wrapper, keeping only
the `data` branches; no redaction. -/
def extractDataPlain (root : Json) : Json :=
  if h : root.has "data" = true then
    extractDataPlain (root.get "data")
  else
    match root with
    | .array elems => .array (extractElementsPlain elems)
    | .object members => .object (extractMembersPlain members)
    | _ => root
termination_by (sizeOf root, 1)
decreasing_by
  · exact Prod.Lex.left _ _ (Json.sizeOf_get_lt h)
  · exact Prod.Lex.left _ _ (by simp <;> omega)
  · exact Prod.Lex.left _ _ (by simp <;> omega)

/-- Legacy array-entry loop. -/
def extractElementsPlain : List Json → List Json
  | [] => []
  | e :: rest => extractDataPlain e :: extractElementsPlain rest
termination_by elems => (sizeOf elems, 0)
decreasing_by
  · exact Prod.Lex.left _ _ (by simp <;> omega)
  · exact Prod.Lex.left _ _ (by simp <;> omega)

/-- Legacy object-member loop. -/
def extractMembersPlain : List (String × Json) → List (String × Json)
  | [] => []
  | (k, v) :: rest => (k, extractDataPlain v) :: extractMembersPlain rest
termination_by members => (sizeOf members, 0)
decreasing_by
  · exact Prod.Lex.left _ _ (by simp <;> omega)
  · exact Prod.Lex.left _ _ (by simp <;> omega)

end

/-- Legacy `Store::Impl::GetData(path)`: descend then strip wrappers (no
invalid-to-null mapping in this revision). -/
def getDataPlain (store : Json) (path : List String) : Json :=
  extractDataPlain (descendTreePlain store path)

/-- The projection part of `Store::Impl::GetData` before the invalid-to-null
mapping: descend with accumulated policy, then extract. -/
def projectData (store : Json) (path : List String) (rolesHeld : RoleSet) : Json :=
  let pr := descendTree {} store path
  extractData pr.1 pr.2 rolesHeld

/-! ## Store lifecycle and coalesced-save state machine (`Store::Impl`)

Clock reads are modelled by passing the current time to each operation;
scheduling a callback appends a `SaveCb` record (token, captured generation,
due time) to `pending`, and `Scheduler::Cancel(token)` removes the record
with that token.  The ghost counter `saves` observes each execution of
`Save()`'s body.  Times are modelled as integers. -/

/-- A scheduled save callback: its scheduler token, the generation it
captured, and its due time. -/
structure SaveCb where
  token : Nat
  gen : Nat
  time : Int
deriving DecidableEq, Repr

/-- A registered data subscription (delivery callback omitted). -/
structure Subscription where
  path : List String
  rolesHeld : RoleSet
deriving DecidableEq

/-- The mutable state of `Store::Impl` plus the model of its scheduler. -/
structure StoreState where
  dirty : Bool := false
  minSaveInterval : Int := 0
  generation : Nat := 0
  mobilized : Bool := false
  nextSaveTime : Int := 0
  nextSaveToken : Nat := 0
  nextSubscriptionToken : Nat := 1
  saving : Bool := false
  store : Json := .invalid
  clockBound : Bool := false
  subscribers : List (Nat × Subscription) := []
  pending : List SaveCb := []
  nextToken : Nat := 1
  saves : Nat := 0
deriving DecidableEq

/-- `Store::Impl::ScheduleSave`: while a save is armed, just set `dirty`;
otherwise arm one save at `max nextSaveTime now` and push `nextSaveTime`
one interval further. -/
def scheduleSave (s : StoreState) (now : Int) : StoreState :=
  if s.saving then { s with dirty := true }
  else
    let s1 := { s with saving := true, dirty := false }
    let next := if s1.nextSaveTime < now then now else s1.nextSaveTime
    { s1 with
      nextSaveToken := s1.nextToken,
      nextToken := s1.nextToken + 1,
      pending := s1.pending ++ [⟨s1.nextToken, s1.generation, next⟩],
      nextSaveTime := next + s1.minSaveInterval }

/-- `Store::Impl::Save`: clear `saving`, and re-arm a follow-up save iff
`dirty` was set meanwhile.  (`saves` counts the executions.) -/
def save (s : StoreState) (now : Int) : StoreState :=
  let s1 := { s with saving := false, saves := s.saves + 1 }
  if s1.dirty then scheduleSave s1 now else s1

/-- The scheduled save lambda firing: the scheduler retires the callback;
the body returns early unless the store is mobilized and the captured
generation is current, and otherwise runs `Save`. -/
def runSaveCallback (s : StoreState) (cb : SaveCb) (now : Int) : StoreState :=
  let s1 := { s with pending := s.pending.filter (fun c => c.token != cb.token) }
  if !s1.mobilized || cb.gen != s1.generation then s1
  else save s1 now

/-- `Store::Demobilize`: cancel the armed save (if any), clear `dirty`,
detach the clock, mark un-mobilized; a no-op if not mobilized. -/
def demobilize (s : StoreState) : StoreState :=
  if !s.mobilized then s
  else
    let s1 :=
      if s.saving then
        { s with pending := s.pending.filter (fun c => c.token != s.nextSaveToken),
                 saving := false }
      else s
    { s1 with dirty := false, clockBound := false, mobilized := false }

/-- `Store::Mobilize`: idempotent when mobilized; `contents = none` models a
`LoadFile` failure and `some j` the decoded file (with `j = invalid` for an
undecodable document, which is still assigned to `store` before the type
check rejects it).  On success: read `Configuration.MinSaveInterval`
(default 60), bind the clock, mark mobilized, bump the generation. -/
def mobilize (s : StoreState) (contents : Option Json) : Bool × StoreState :=
  if s.mobilized then (true, s)
  else
    match contents with
    | none => (false, s)
    | some j =>
        let s1 := { s with store := j }
        if j.isInvalid then (false, s1)
        else
          let configuration := getData s1.store ["Configuration"] ∅
          let s2 := { s1 with minSaveInterval :=
            if configuration.has "MinSaveInterval" then
              (configuration.get "MinSaveInterval").asInt
            else 60 }
          (true, { s2 with clockBound := true, mobilized := true,
                           generation := s2.generation + 1 })

/-- `Store::Impl::SubscribeToData` (registration part): allocate the next
subscription token and register the subscription; returns the token the
cancel closure captures. -/
def subscribeToData (s : StoreState) (path : List String) (rolesHeld : RoleSet) :
    Nat × StoreState :=
  let subscriptionToken := s.nextSubscriptionToken
  (subscriptionToken,
   { s with nextSubscriptionToken := subscriptionToken + 1,
            subscribers := s.subscribers ++ [(subscriptionToken, ⟨path, rolesHeld⟩)] })

/-- The cancel closure returned by `SubscribeToData`: it holds a weak
reference to the implementation (`none` models the implementation already
destroyed) and erases its captured token from the registry. -/
def cancelSubscription (subscriptionToken : Nat) (self : Option StoreState) :
    Option StoreState :=
  match self with
  | none => none
  | some s =>
      some { s with subscribers :=
        s.subscribers.filter (fun e => e.1 != subscriptionToken) }

/-- The states a `Store` can reach through its public operations.
`scheduleSave` requires a mobilized store (every mutation path runs on a
mobilized store, and `ScheduleSave` dereferences the bound clock); a save
callback can only fire while the scheduler still holds it. -/
inductive Reachable : StoreState → Prop where
  | init : Reachable {}
  | mobilize (s : StoreState) (c : Option Json) :
      Reachable s → Reachable (mobilize s c).2
  | demobilize (s : StoreState) : Reachable s → Reachable (demobilize s)
  | scheduleSave (s : StoreState) (now : Int) :
      Reachable s → s.mobilized = true → Reachable (scheduleSave s now)
  | runSaveCallback (s : StoreState) (cb : SaveCb) (now : Int) :
      Reachable s → cb ∈ s.pending → Reachable (runSaveCallback s cb now)
  | subscribe (s : StoreState) (p : List String) (r : RoleSet) :
      Reachable s → Reachable (subscribeToData s p r).2

/-! ## WebSocket session engine (`ApiWs.cpp`, `Client`) -/

/-- Is a JSON value an object? (`GetType() == Object`.) -/
def Json.isObject (j : Json) : Bool :=
  match j with
  | .object _ => true
  | _ => false

/-- The per-connection `Client` state.  `storeDoc` is the document held by
the `Store` the client reads through (`store->GetData(...)`, legacy path);
`authenticationTimeout` is the scheduler token of the armed auth timer
(`0` = none). -/
structure ClientState where
  authenticated : Bool := false
  authenticationTimeout : Nat := 0
  identifiers : Finset String := ∅
  roles : Finset String := ∅
  storeDoc : Json := .invalid
  nextHttpClientTransactionId : Nat := 1
  pendingTransactions : Finset Nat := ∅
deriving DecidableEq

/-- Observable actions of a client during one message delivery. -/
inductive WsEvent where
  | sendText (j : Json)
  | close (code : Nat) (reason : String)
  | cancelTimer (token : Nat)
  | httpRequest (id : Nat)
deriving DecidableEq, Repr

/-- `Client::ReportError`: send an `Error` frame, and when `disconnect` is
set, invoke the close delegate with WebSocket status 1005. -/
def reportError (message : String) (disconnect : Bool) : List WsEvent :=
  .sendText (.object [("type", .string "Error"), ("message", .string message)])
    :: (if disconnect then [.close 1005 ""] else [])

/-- `Client::AddRole`: set-insert a role. -/
def addRole (c : ClientState) (role : String) : ClientState :=
  { c with roles := insert role c.roles }

/-- `Client::AddIdentifier`: set-insert an identifier; on first insertion
look up `Roles[identifier]` in the Store and add every role listed. -/
def addIdentifier (c : ClientState) (identifier : String) : ClientState :=
  if identifier ∈ c.identifiers then c
  else
    let c1 := { c with identifiers := insert identifier c.identifiers }
    let roles := getDataPlain c1.storeDoc ["Roles"]
    if roles.has identifier then
      match roles.get identifier with
      | .array entries => entries.foldl (fun acc e => addRole acc e.asString) c1
      | _ => c1
    else c1

/-- `Client::OnAuthenticated`: set `authenticated`, cancel the auth timer
(if armed), and send `{"type":"Authenticated"}`. -/
def onAuthenticated (c : ClientState) : ClientState × List WsEvent :=
  let timerEvents :=
    if c.authenticationTimeout ≠ 0 then [WsEvent.cancelTimer c.authenticationTimeout]
    else []
  ({ c with authenticated := true, authenticationTimeout := 0 },
   timerEvents ++ [.sendText (.object [("type", .string "Authenticated")])])

/-- `Client::OnAuthenticate`: reject re-authentication (error frame, no
disconnect); `key` authenticates synchronously against `Roles`; `twitch`
posts the outbound OAuth validation transaction (completion is a separate
event); other shapes error and close.  After the synchronous part, a
non-empty identifier set completes authentication. -/
def onAuthenticate (c : ClientState) (message : Json) : ClientState × List WsEvent :=
  if c.authenticated then
    (c, reportError "Already authenticated; reconnect to reauthenticate" false)
  else if message.has "key" then
    let identifier := "key:" ++ (message.get "key").asString
    let roles := getDataPlain c.storeDoc ["Roles"]
    if roles.has identifier then
      let c1 := addIdentifier c identifier
      if c1.identifiers = ∅ then (c1, [])
      else onAuthenticated c1
    else
      (c, reportError "Invalid access key" true)
  else if message.has "twitch" then
    let id := c.nextHttpClientTransactionId
    let c1 := { c with nextHttpClientTransactionId := id + 1,
                       pendingTransactions := insert id c.pendingTransactions }
    if c1.identifiers = ∅ then (c1, [WsEvent.httpRequest id])
    else
      let (c2, evs) := onAuthenticated c1
      (c2, WsEvent.httpRequest id :: evs)
  else
    (c, reportError "Unrecognized authentication method" true)

/-- The static message-handler table: `{"Authenticate", &Client::OnAuthenticate}`. -/
def messageHandler (messageType : String) :
    Option (ClientState → Json → ClientState × List WsEvent) :=
  if messageType = "Authenticate" then some onAuthenticate else none

/-- `Client::OnText`, after the frame text has been decoded
(`Json::Value::FromEncoding`): malformed input (not an object, or no
`type` member) errors and closes; an unregistered type errors without
closing; otherwise dispatch. -/
def onText (c : ClientState) (message : Json) : ClientState × List WsEvent :=
  if !message.isObject || !message.has "type" then
    (c, reportError "malformed message received" true)
  else
    let messageType := (message.get "type").asString
    match messageHandler messageType with
    | none => (c, reportError ("Unknown message type received: " ++ messageType) false)
    | some handler => handler c message

/-- Does an event list close the connection? -/
def closesConnection (events : List WsEvent) : Bool :=
  events.any fun e =>
    match e with
    | .close _ _ => true
    | _ => false

/-- Does an event list send an `Error` frame? -/
def sendsError (events : List WsEvent) : Bool :=
  events.any fun e =>
    match e with
    | .sendText j => j.get "type" == .string "Error"
    | _ => false

/-! ## HTTP resource router glue (`ApiHttp.cpp`) -/

/-- The part of an HTTP request the registered wrapper inspects. -/
structure HttpRequest where
  method : String
deriving DecidableEq

/-- An HTTP response; `body = none` models the empty body string, and
`some j` a body holding the encoding of `j`. -/
structure HttpResponse where
  statusCode : Nat := 0
  reasonPhrase : String := ""
  body : Option Json := none
  headers : List (String × String) := []
deriving DecidableEq

/-- `DEFINE_HANDLER(Unknown)`: the catch-all resource body. -/
def unknownHandler (_request : HttpRequest) (response : HttpResponse) :
    Json × HttpResponse :=
  (Json.object [("message", .string "No such resource defined")],
   { response with statusCode := 404, reasonPhrase := "Not Found" })

/-- The method set the catch-all resource is registered with
(`HANDLER_METHODS {"GET", "PUT", "POST", "DELETE"}`). -/
def catchAllMethods : Finset String := {"GET", "PUT", "POST", "DELETE"}

/-- The wrapper `ApiHttp::RegisterResources` installs around every handler:
503 when the Store is gone, 405 when the method is not in the registered
set, otherwise 200 overwritten by whatever the handler sets, plus the
content and CORS headers. -/
def handleResource (methods : Finset String)
    (handler : HttpRequest → HttpResponse → Json × HttpResponse)
    (storeAlive : Bool) (request : HttpRequest) : HttpResponse :=
  let response : HttpResponse := {}
  let response : HttpResponse :=
    if !storeAlive then
      let msg : Json := .object [("message",
        .string "The service is shutting down.  Please try again later!")]
      { response with
          statusCode := 503
          reasonPhrase := "Service Unavailable"
          body := some msg }
    else if request.method ∉ methods then
      { response with statusCode := 405, reasonPhrase := "Method Not Allowed" }
    else
      let r1 := { response with statusCode := 200, reasonPhrase := "OK" }
      let br := handler request r1
      { br.2 with body := some br.1 }
  let response : HttpResponse :=
    if response.body.isNone then
      { response with headers := response.headers ++ [("Content-Length", "0")] }
    else
      { response with headers := response.headers ++ [("Content-Type", "application/json")] }
  if response.statusCode / 100 = 2 then
    { response with headers := response.headers ++ [("Access-Control-Allow-Origin", "*")] }
  else response

/-- The registered catch-all resource: the wrapper around `Unknown`. -/
def catchAllResource (storeAlive : Bool) (request : HttpRequest) : HttpResponse :=
  handleResource catchAllMethods unknownHandler storeAlive request

/-! # Claims -/

/-! ## C1: `require.K` replacement, and the `create`/`delete` key misread -/

/-- C1: the claim says `require.create_data` (resp. `require.delete_data`)
replaces the `create_data` (resp. `delete_data`) permitted set with exactly
the roles listed under that key.  The code instead clears the set and then
reads the roles from `require["create"]` (resp. `require["delete"]`), keys
that were never written, so on a meta whose `require` carries
`create_data = delete_data = ["admin"]` both sets come out empty instead of
`{"admin"}` — while the four read/write operations are replaced correctly
from the same descriptor. -/
theorem updateRoles_create_delete_misread :
    (updateRoles
        { createData := {"x"}, deleteData := {"x"} }
        (.object [("require", .object [
          ("create_data", .array [.string "admin"]),
          ("delete_data", .array [.string "admin"]),
          ("read_data", .array [.string "admin"])])]))
      = { createData := ∅, deleteData := ∅, readData := {"admin"} } ∧
    ({"admin"} : RoleSet) ≠ (∅ : RoleSet) := by
  constructor
  · decide
  · decide

/-! ## C8: the HTTP catch-all resource -/

/-- C8 counterexample: the claim says the catch-all responds `404 Not
Found` regardless of the request method, but the resource is registered
only for `GET/PUT/POST/DELETE`, so a `PATCH` request gets the wrapper's
`405 Method Not Allowed`, not 404. -/
theorem catchAll_patch_is_405 :
    (catchAllResource true { method := "PATCH" }).statusCode = 405 ∧
    (catchAllResource true { method := "PATCH" }).statusCode ≠ 404 ∧
    (catchAllResource true { method := "PATCH" }).reasonPhrase = "Method Not Allowed" := by
  constructor
  · decide
  · constructor
    · decide
    · decide

/-- C8 (amended): while the Store is alive, a request for an unregistered
target answered by the catch-all resource gets `404 Not Found` with JSON
body `{"message":"No such resource defined"}` for every method in the
registered set `{GET, PUT, POST, DELETE}`, and `405 Method Not Allowed`
(empty body) for every other method. -/
theorem catchAll_response (request : HttpRequest) :
    (request.method ∈ catchAllMethods →
      catchAllResource true request =
        { statusCode := 404
          reasonPhrase := "Not Found"
          body := some (.object [("message", .string "No such resource defined")])
          headers := [("Content-Type", "application/json")] }) ∧
    (request.method ∉ catchAllMethods →
      catchAllResource true request =
        { statusCode := 405
          reasonPhrase := "Method Not Allowed"
          body := none
          headers := [("Content-Length", "0")] }) := by
  constructor
  · intro h
    simp [catchAllResource, handleResource, unknownHandler, h]
  · intro h
    simp [catchAllResource, handleResource, unknownHandler, h]

/-- C8 witness: the amended statement applied at `GET` (in the set) and
`PATCH` (not in the set). -/
theorem catchAll_response_witness :
    catchAllResource true { method := "GET" } =
      { statusCode := 404
        reasonPhrase := "Not Found"
        body := some (.object [("message", .string "No such resource defined")])
        headers := [("Content-Type", "application/json")] } ∧
    catchAllResource true { method := "PATCH" } =
      { statusCode := 405
        reasonPhrase := "Method Not Allowed"
        body := none
        headers := [("Content-Length", "0")] } :=
  ⟨(catchAll_response { method := "GET" }).1 (by decide),
   (catchAll_response { method := "PATCH" }).2 (by decide)⟩

/-! ## C6, C7: WebSocket message handling -/

theorem Json.has_of_get_ne {j : Json} {k : String} (h : j.get k ≠ Json.invalid) :
    j.has k = true := by
  cases j <;> simp [Json.get] at h
  rename_i members
  simp only [Json.has]
  cases hv : Json.findMember members k with
  | some v => simp
  | none => simp [hv] at h

/-- C6 counterexample: the claim says a second `Authenticate` received by an
already-authenticated session emits an `Error` frame *and closes the
connection*; the code calls `ReportError` with its `disconnect` parameter
defaulted to `false`, so the session sends the error but stays open. -/
theorem reauth_does_not_close :
    closesConnection (onText { authenticated := true, storeDoc := .object [] }
      (.object [("type", .string "Authenticate"), ("key", .string "abc")])).2 = false ∧
    sendsError (onText { authenticated := true, storeDoc := .object [] }
      (.object [("type", .string "Authenticate"), ("key", .string "abc")])).2 = true := by
  constructor
  · decide
  · decide

/-- C6 (amended): for every session whose `authenticated` flag is set,
receiving any further `Authenticate` message emits the
"Already authenticated; reconnect to reauthenticate" `Error` frame, leaves
the session state unchanged, and does **not** close the connection. -/
theorem reauth_error_without_close (c : ClientState) (message : Json)
    (hauth : c.authenticated = true)
    (hobj : message.isObject = true)
    (htype : message.get "type" = .string "Authenticate") :
    onText c message =
      (c, [.sendText (.object [("type", .string "Error"),
        ("message", .string "Already authenticated; reconnect to reauthenticate")])]) ∧
    closesConnection (onText c message).2 = false := by
  have hhas : message.has "type" = true := Json.has_of_get_ne (by simp [htype])
  have hmain : onText c message =
      (c, [.sendText (.object [("type", .string "Error"),
        ("message", .string "Already authenticated; reconnect to reauthenticate")])]) := by
    simp [onText, hobj, hhas, htype, Json.asString, messageHandler, onAuthenticate,
      hauth, reportError]
  refine ⟨hmain, ?_⟩
  rw [hmain]
  simp [closesConnection]

/-- C6 witness: the amended statement applied to a concrete authenticated
session and a concrete `Authenticate` message. -/
theorem reauth_error_without_close_witness :
    onText { authenticated := true, storeDoc := .object [] }
        (.object [("type", .string "Authenticate"), ("key", .string "abc")]) =
      ({ authenticated := true, storeDoc := .object [] },
       [.sendText (.object [("type", .string "Error"),
         ("message", .string "Already authenticated; reconnect to reauthenticate")])]) ∧
    closesConnection (onText { authenticated := true, storeDoc := .object [] }
      (.object [("type", .string "Authenticate"), ("key", .string "abc")])).2 = false :=
  reauth_error_without_close _ _ rfl rfl rfl

/-- C7: for every inbound text frame, if it decodes to a JSON object whose
string `type` matches no registered handler, the session sends an
`Error("Unknown message type received: …")` frame and stays open; if it is
malformed (not a JSON object, or lacking a `type` member), the session
sends `Error("malformed message received")` and always closes. -/
theorem dispatch_error_policy (c : ClientState) (message : Json) :
    (∀ t : String, message.isObject = true → message.get "type" = .string t →
        messageHandler t = none →
        onText c message = (c, reportError ("Unknown message type received: " ++ t) false) ∧
        closesConnection (onText c message).2 = false ∧
        sendsError (onText c message).2 = true) ∧
    (message.isObject = false ∨ message.has "type" = false →
        onText c message = (c, reportError "malformed message received" true) ∧
        closesConnection (onText c message).2 = true ∧
        sendsError (onText c message).2 = true) := by
  constructor
  · intro t hobj htype hnone
    have hhas : message.has "type" = true := Json.has_of_get_ne (by simp [htype])
    have hmain : onText c message =
        (c, reportError ("Unknown message type received: " ++ t) false) := by
      simp [onText, hobj, hhas, htype, Json.asString, hnone]
    refine ⟨hmain, ?_, ?_⟩
    · rw [hmain]
      simp [closesConnection, reportError]
    · rw [hmain]
      simp [sendsError, reportError, Json.get, Json.findMember]
  · intro hmal
    have hmain : onText c message = (c, reportError "malformed message received" true) := by
      rcases hmal with h | h
      · simp [onText, h]
      · simp [onText, h]
    refine ⟨hmain, ?_, ?_⟩
    · rw [hmain]
      simp [closesConnection, reportError]
    · rw [hmain]
      simp [sendsError, reportError, Json.get, Json.findMember]

/-- C7 witness: the unknown-type branch applied to `{"type":"Bogus"}` and
the malformed branch applied to a non-object frame. -/
theorem dispatch_error_policy_witness :
    (onText { storeDoc := .object [] } (.object [("type", .string "Bogus")]) =
        ({ storeDoc := .object [] }, reportError "Unknown message type received: Bogus" false) ∧
      closesConnection (onText { storeDoc := .object [] }
        (.object [("type", .string "Bogus")])).2 = false ∧
      sendsError (onText { storeDoc := .object [] }
        (.object [("type", .string "Bogus")])).2 = true) ∧
    (onText { storeDoc := .object [] } (.array []) =
        ({ storeDoc := .object [] }, reportError "malformed message received" true) ∧
      closesConnection (onText { storeDoc := .object [] } (.array [])).2 = true ∧
      sendsError (onText { storeDoc := .object [] } (.array [])).2 = true) :=
  ⟨(dispatch_error_policy { storeDoc := .object [] }
      (.object [("type", .string "Bogus")])).1 "Bogus" rfl rfl rfl,
   (dispatch_error_policy { storeDoc := .object [] } (.array [])).2 (Or.inl rfl)⟩

/-! ## C9: failed Mobilize leaves the store recoverable -/

/-- C9: whenever `Store::Mobilize` returns `false` (the file cannot be
loaded, or its contents do not decode), the store stays un-mobilized, the
generation counter is untouched, no clock is bound, no save is scheduled
(and the saving/dirty flags are untouched), so a subsequent `Mobilize` with
readable, decodable contents succeeds. -/
theorem mobilize_failure_recoverable (s : StoreState) (contents : Option Json)
    (h : (mobilize s contents).1 = false) :
    (mobilize s contents).2.mobilized = false ∧
    (mobilize s contents).2.generation = s.generation ∧
    (mobilize s contents).2.clockBound = s.clockBound ∧
    (mobilize s contents).2.pending = s.pending ∧
    (mobilize s contents).2.saving = s.saving ∧
    (mobilize s contents).2.dirty = s.dirty ∧
    (∀ j : Json, j.isInvalid = false →
      (mobilize ((mobilize s contents).2) (some j)).1 = true) := by
  by_cases hm : s.mobilized = true
  · simp [mobilize, hm] at h
  · have hm' : s.mobilized = false := by simpa using hm
    cases contents with
    | none =>
        simp [mobilize, hm'] at h ⊢
        intro j hj
        simp [hj]
    | some j =>
        by_cases hj : j.isInvalid = true
        · simp [mobilize, hm', hj] at h ⊢
          intro j2 hj2
          simp [hj2]
        · have hj' : j.isInvalid = false := by simpa using hj
          simp [mobilize, hm', hj'] at h

/-- C9 witness: a `LoadFile` failure on the fresh store, followed by a
successful retry with an empty JSON object document. -/
theorem mobilize_failure_recoverable_witness :
    (mobilize ({} : StoreState) none).2.mobilized = false ∧
    (mobilize ({} : StoreState) none).2.generation = ({} : StoreState).generation ∧
    (mobilize ({} : StoreState) none).2.clockBound = ({} : StoreState).clockBound ∧
    (mobilize ({} : StoreState) none).2.pending = ({} : StoreState).pending ∧
    (mobilize ({} : StoreState) none).2.saving = ({} : StoreState).saving ∧
    (mobilize ({} : StoreState) none).2.dirty = ({} : StoreState).dirty ∧
    (∀ j : Json, j.isInvalid = false →
      (mobilize ((mobilize ({} : StoreState) none).2) (some j)).1 = true) :=
  mobilize_failure_recoverable {} none (by decide)

/-! ## C10: the subscription cancel closure -/

/-- C10: the cancel closure returned by `SubscribeToData` (a) on its first
invocation erases exactly the subscription it registered, restoring the
registry to what it was before subscribing (the freshly allocated token is
not previously in use); (b) is idempotent — every later invocation is a
no-op; and (c) does nothing, without failing, when the Store implementation
has been destroyed (the weak pointer no longer locks). -/
theorem cancelSubscription_exact_idempotent_safe (s : StoreState)
    (path : List String) (rolesHeld : RoleSet)
    (hfresh : ∀ e ∈ s.subscribers, e.1 < s.nextSubscriptionToken) :
    (cancelSubscription (subscribeToData s path rolesHeld).1
        (some (subscribeToData s path rolesHeld).2) =
      some { (subscribeToData s path rolesHeld).2 with subscribers := s.subscribers }) ∧
    (∀ (tok : Nat) (x : Option StoreState),
      cancelSubscription tok (cancelSubscription tok x) = cancelSubscription tok x) ∧
    (∀ tok : Nat, cancelSubscription tok none = none) := by
  refine ⟨?_, ?_, ?_⟩
  · simp only [cancelSubscription, subscribeToData]
    congr 1
    congr 1
    rw [List.filter_append]
    have h1 : s.subscribers.filter
        (fun e => e.1 != s.nextSubscriptionToken) = s.subscribers := by
      apply List.filter_eq_self.mpr
      intro e he
      have := hfresh e he
      simp
      omega
    have h2 : ([(s.nextSubscriptionToken, ⟨path, rolesHeld⟩)] :
        List (Nat × Subscription)).filter
        (fun e => e.1 != s.nextSubscriptionToken) = [] := by
      simp
    rw [h1, h2, List.append_nil]
  · intro tok x
    cases x with
    | none => rfl
    | some st =>
        simp only [cancelSubscription]
        congr 2
        rw [List.filter_filter]
        apply List.filter_congr
        intro e he
        simp [Bool.and_self]
  · intro tok
    rfl

/-- C10 witness: the cancel closure behavior on a concrete store with one
prior subscription. -/
theorem cancelSubscription_witness :
    (cancelSubscription
        (subscribeToData { nextSubscriptionToken := 2, subscribers := [(1, ⟨[], ∅⟩)] } ["a"] {"r"}).1
        (some (subscribeToData { nextSubscriptionToken := 2, subscribers := [(1, ⟨[], ∅⟩)] } ["a"] {"r"}).2) =
      some { (subscribeToData { nextSubscriptionToken := 2, subscribers := [(1, ⟨[], ∅⟩)] } ["a"] {"r"}).2 with
             subscribers := [(1, ⟨[], ∅⟩)] }) ∧
    (∀ (tok : Nat) (x : Option StoreState),
      cancelSubscription tok (cancelSubscription tok x) = cancelSubscription tok x) ∧
    (∀ tok : Nat, cancelSubscription tok none = none) :=
  cancelSubscription_exact_idempotent_safe
    { nextSubscriptionToken := 2, subscribers := [(1, ⟨[], ∅⟩)] } ["a"] {"r"}
    (by intro e he; simp at he; simp [he])

/-! ## C4, C5: the coalesced-save machinery -/

/-- The save-machinery invariant: when a save is armed the store is
mobilized and exactly the one armed callback (current token, current
generation) is scheduled; when no save is armed nothing is scheduled. -/
def StoreInv (s : StoreState) : Prop :=
  (s.saving = true →
    s.mobilized = true ∧ ∃ t : Int, s.pending = [⟨s.nextSaveToken, s.generation, t⟩]) ∧
  (s.saving = false → s.pending = [])

theorem reachable_inv (s : StoreState) (h : Reachable s) : StoreInv s := by
  induction h with
  | init =>
      constructor
      · intro h
        simp at h
      · intro _
        rfl
  | mobilize s c hr ih =>
      by_cases hm : s.mobilized = true
      · simpa [mobilize, hm] using ih
      · have hm' : s.mobilized = false := by simpa using hm
        have hsv : s.saving = false := by
          by_contra hs
          have hs' : s.saving = true := by simpa using hs
          exact absurd (ih.1 hs').1 (by simp [hm'])
        have hp : s.pending = [] := ih.2 hsv
        cases c with
        | none => simpa [mobilize, hm'] using ih
        | some j =>
            by_cases hj : j.isInvalid = true
            · constructor
              · intro hcontra
                simp [mobilize, hm', hj] at hcontra
                simp [hcontra] at hsv
              · intro _
                simp [mobilize, hm', hj, hp]
            · have hj' : j.isInvalid = false := by simpa using hj
              constructor
              · intro hcontra
                simp [mobilize, hm', hj'] at hcontra
                simp [hcontra] at hsv
              · intro _
                simp [mobilize, hm', hj', hp]
  | demobilize s hr ih =>
      by_cases hm : s.mobilized = true
      · by_cases hs : s.saving = true
        · obtain ⟨t, hp⟩ := (ih.1 hs).2
          constructor
          · intro hcontra
            simp [demobilize, hm, hs] at hcontra
          · intro _
            simp [demobilize, hm, hs, hp]
        · have hs' : s.saving = false := by simpa using hs
          have hp := ih.2 hs'
          constructor
          · intro hcontra
            simp [demobilize, hm, hs'] at hcontra
          · intro _
            simp [demobilize, hm, hs', hp]
      · have hm' : s.mobilized = false := by simpa using hm
        simpa [demobilize, hm'] using ih
  | scheduleSave s now hr hmob ih =>
      by_cases hs : s.saving = true
      · constructor
        · intro _
          simp only [scheduleSave, hs, if_true]
          exact ⟨hmob, (ih.1 hs).2⟩
        · intro hcontra
          simp [scheduleSave, hs] at hcontra
      · have hs' : s.saving = false := by simpa using hs
        have hp := ih.2 hs'
        constructor
        · intro _
          simp only [scheduleSave, hs', if_false, Bool.false_eq_true]
          refine ⟨hmob, if s.nextSaveTime < now then now else s.nextSaveTime, ?_⟩
          simp [hp]
        · intro hcontra
          simp [scheduleSave, hs'] at hcontra
  | runSaveCallback s cb now hr hmem ih =>
      have hs : s.saving = true := by
        by_contra hs
        have hs' : s.saving = false := by simpa using hs
        rw [ih.2 hs'] at hmem
        cases hmem
      obtain ⟨hmob, t, hp⟩ := ih.1 hs
      have hcb : cb = ⟨s.nextSaveToken, s.generation, t⟩ := by
        rw [hp] at hmem
        simpa using hmem
      have hfilter : s.pending.filter (fun c => c.token != cb.token) = [] := by
        rw [hp, hcb]
        simp
      by_cases hd : s.dirty = true
      · constructor
        · intro _
          refine ⟨?_, ?_⟩
          · simp [runSaveCallback, hp, hcb, hmob, save, hd, scheduleSave]
          · refine ⟨if s.nextSaveTime < now then now else s.nextSaveTime, ?_⟩
            simp [runSaveCallback, hp, hcb, hmob, save, hd, scheduleSave]
        · intro hcontra
          simp [runSaveCallback, hp, hcb, hmob, save, hd, scheduleSave] at hcontra
      · have hd' : s.dirty = false := by simpa using hd
        constructor
        · intro hcontra
          simp [runSaveCallback, hp, hcb, hmob, save, hd'] at hcontra
        · intro _
          simp [runSaveCallback, hp, hcb, hmob, save, hd']
  | subscribe s p r hr ih =>
      simpa [subscribeToData] using ih

/-- C4: in every reachable Store state at most one save callback is
scheduled; calling `ScheduleSave` while a save is armed only sets the
`dirty` flag (the state changes in no other way and nothing new is
scheduled); and when the armed callback fires, `Save` clears the `saving`
flag and re-arms exactly one follow-up save if and only if `dirty` is set. -/
theorem one_save_at_a_time (s : StoreState) (hr : Reachable s) (now : Int) :
    s.pending.length ≤ 1 ∧
    (s.saving = true → scheduleSave s now = { s with dirty := true }) ∧
    (∀ cb ∈ s.pending,
      (runSaveCallback s cb now).saving = s.dirty ∧
      (runSaveCallback s cb now).pending.length = (if s.dirty then 1 else 0) ∧
      (runSaveCallback s cb now).saves = s.saves + 1) := by
  have ih := reachable_inv s hr
  refine ⟨?_, ?_, ?_⟩
  · by_cases hs : s.saving = true
    · obtain ⟨-, t, hp⟩ := ih.1 hs
      simp [hp]
    · have hs' : s.saving = false := by simpa using hs
      simp [ih.2 hs']
  · intro hs
    simp [scheduleSave, hs]
  · intro cb hmem
    have hs : s.saving = true := by
      by_contra hsc
      have hnil : s.pending = [] := ih.2 (by simpa using hsc)
      rw [hnil] at hmem
      cases hmem
    obtain ⟨hmob, t, hp⟩ := ih.1 hs
    have hcb : cb = ⟨s.nextSaveToken, s.generation, t⟩ := by
      rw [hp] at hmem
      simpa using hmem
    by_cases hd : s.dirty = true
    · refine ⟨?_, ?_, ?_⟩ <;>
        simp [runSaveCallback, hp, hcb, hmob, save, hd, scheduleSave]
    · have hd' : s.dirty = false := by simpa using hd
      refine ⟨?_, ?_, ?_⟩ <;>
        simp [runSaveCallback, hp, hcb, hmob, save, hd', scheduleSave]

/-- C4 witness: the statement at the reachable state obtained by mobilizing
the fresh store with `{}` and arming one save at time 0. -/
theorem one_save_at_a_time_witness :
    (scheduleSave (mobilize ({} : StoreState) (some (.object []))).2 0).pending.length ≤ 1 ∧
    ((scheduleSave (mobilize ({} : StoreState) (some (.object []))).2 0).saving = true →
      scheduleSave (scheduleSave (mobilize ({} : StoreState) (some (.object []))).2 0) 7 =
        { scheduleSave (mobilize ({} : StoreState) (some (.object []))).2 0 with
          dirty := true }) ∧
    (∀ cb ∈ (scheduleSave (mobilize ({} : StoreState) (some (.object []))).2 0).pending,
      (runSaveCallback
          (scheduleSave (mobilize ({} : StoreState) (some (.object []))).2 0) cb 7).saving =
        (scheduleSave (mobilize ({} : StoreState) (some (.object []))).2 0).dirty ∧
      (runSaveCallback
          (scheduleSave (mobilize ({} : StoreState) (some (.object []))).2 0) cb 7).pending.length =
        (if (scheduleSave (mobilize ({} : StoreState) (some (.object []))).2 0).dirty
         then 1 else 0) ∧
      (runSaveCallback
          (scheduleSave (mobilize ({} : StoreState) (some (.object []))).2 0) cb 7).saves =
        (scheduleSave (mobilize ({} : StoreState) (some (.object []))).2 0).saves + 1) :=
  one_save_at_a_time _
    (Reachable.scheduleSave _ 0
      (Reachable.mobilize {} (some (.object [])) Reachable.init) (by decide)) 7

/-- C5: a save callback that finds the store un-mobilized or whose captured
generation differs from the current one retires without performing a save
or touching the store; after `Demobilize` no save callback remains
scheduled and the store is un-mobilized; and a `Demobilize` followed by a
successful `Mobilize` bumps the generation, so every callback scheduled
before the cycle captured a stale generation and is a no-op. -/
theorem stale_save_callbacks_neutralized :
    (∀ (s : StoreState) (cb : SaveCb) (now : Int),
      s.mobilized = false ∨ cb.gen ≠ s.generation →
      runSaveCallback s cb now =
        { s with pending := s.pending.filter (fun c => c.token != cb.token) } ∧
      (runSaveCallback s cb now).saves = s.saves) ∧
    (∀ s : StoreState, Reachable s →
      (demobilize s).pending = [] ∧ (demobilize s).mobilized = false) ∧
    (∀ (s : StoreState) (j : Json), j.isInvalid = false →
      (mobilize (demobilize s) (some j)).1 = true ∧
      (mobilize (demobilize s) (some j)).2.generation = s.generation + 1) := by
  refine ⟨?_, ?_, ?_⟩
  · intro s cb now h
    rcases h with h | h
    · refine ⟨?_, ?_⟩ <;> simp [runSaveCallback, h]
    · refine ⟨?_, ?_⟩ <;> simp [runSaveCallback, h]
  · intro s hr
    have ih := reachable_inv s hr
    by_cases hm : s.mobilized = true
    · by_cases hs : s.saving = true
      · obtain ⟨-, t, hp⟩ := ih.1 hs
        constructor
        · simp [demobilize, hm, hs, hp]
        · simp [demobilize, hm, hs]
      · have hs' : s.saving = false := by simpa using hs
        constructor
        · simp [demobilize, hm, hs', ih.2 hs']
        · simp [demobilize, hm, hs']
    · have hm' : s.mobilized = false := by simpa using hm
      have hs' : s.saving = false := by
        by_contra hsc
        exact absurd (ih.1 (by simpa using hsc)).1 (by simp [hm'])
      constructor
      · simp [demobilize, hm', ih.2 hs']
      · simp [demobilize, hm']
  · intro s j hj
    have hdm : (demobilize s).mobilized = false := by
      by_cases hm : s.mobilized = true
      · by_cases hs : s.saving = true <;> simp [demobilize, hm, hs]
      · have hm' : s.mobilized = false := by simpa using hm
        simp [demobilize, hm']
    have hdg : (demobilize s).generation = s.generation := by
      by_cases hm : s.mobilized = true
      · by_cases hs : s.saving = true <;> simp [demobilize, hm, hs]
      · have hm' : s.mobilized = false := by simpa using hm
        simp [demobilize, hm']
    constructor
    · simp [mobilize, hdm, hj]
    · simp [mobilize, hdm, hj, hdg]

/-- C5 witness: a stale callback (captured generation 5) fired on the fresh
store; demobilizing the fresh store; and a demobilize-then-mobilize cycle
on the fresh store. -/
theorem stale_save_callbacks_neutralized_witness :
    (runSaveCallback ({} : StoreState) ⟨0, 5, 0⟩ 3 =
      { ({} : StoreState) with
        pending := ({} : StoreState).pending.filter (fun c => c.token != 0) } ∧
     (runSaveCallback ({} : StoreState) ⟨0, 5, 0⟩ 3).saves = ({} : StoreState).saves) ∧
    ((demobilize ({} : StoreState)).pending = [] ∧
     (demobilize ({} : StoreState)).mobilized = false) ∧
    ((mobilize (demobilize ({} : StoreState)) (some (.object []))).1 = true ∧
     (mobilize (demobilize ({} : StoreState)) (some (.object []))).2.generation =
       ({} : StoreState).generation + 1) :=
  ⟨stale_save_callbacks_neutralized.1 {} ⟨0, 5, 0⟩ 3 (Or.inr (by decide)),
   stale_save_callbacks_neutralized.2.1 {} Reachable.init,
   stale_save_callbacks_neutralized.2.2 {} (.object []) (by decide)⟩

/-! ## C2: admin (empty role set) projection -/

theorem rolePermitted_empty (rolesPermitted : RoleSet) :
    rolePermitted rolesPermitted ∅ = true := by
  simp [Alfred.rolePermitted]

theorem wf_not_invalid {j : Json} (h : wf j = true) : j.isInvalid = false := by
  cases j <;> simp [Json.isInvalid] <;> simp [wf] at h

theorem wfElements_mem {es : List Json} (h : wfElements es = true) :
    ∀ e ∈ es, wf e = true := by
  induction es with
  | nil => intro e he; cases he
  | cons x xs ih =>
      rw [wfElements] at h
      simp at h
      intro e he
      rcases List.mem_cons.mp he with rfl | he
      · exact h.1
      · exact ih (by simpa using h.2) e he

theorem wfMembers_mem {l : List (String × Json)} (h : wfMembers l = true) :
    ∀ kv ∈ l, wf kv.2 = true := by
  induction l with
  | nil => intro kv hkv; cases hkv
  | cons x xs ih =>
      obtain ⟨k, v⟩ := x
      rw [wfMembers] at h
      simp at h
      intro kv hkv
      rcases List.mem_cons.mp hkv with rfl | hkv
      · exact h.1
      · exact ih (by simpa using h.2) kv hkv

theorem wfPolicyPair_shape {l : List (String × Json)} (h : wfPolicyPair l = true) :
    ∃ d m, l = [("data", d), ("meta", m)] ∧ wf d = true ∧ wf m = true := by
  match l with
  | [] => simp [wfPolicyPair] at h
  | [(k1, d)] => simp [wfPolicyPair] at h
  | (a :: b :: c :: rest) => simp [wfPolicyPair] at h
  | [(k1, d), (k2, m)] =>
      rw [wfPolicyPair] at h
      simp at h
      obtain ⟨⟨⟨h1, h2⟩, h3⟩, h4⟩ := h
      exact ⟨d, m, by rw [h1, h2], h3, h4⟩

theorem findMember_pair_data (d m : Json) :
    Json.findMember [("data", d), ("meta", m)] "data" = some d := by
  rw [Json.findMember]
  rw [if_pos rfl]

theorem findMember_pair_meta (d m : Json) :
    Json.findMember [("data", d), ("meta", m)] "meta" = some m := by
  rw [Json.findMember]
  rw [if_neg (by decide)]
  rw [Json.findMember]
  rw [if_pos rfl]

theorem get_pair_data (d m : Json) :
    (Json.object [("data", d), ("meta", m)]).get "data" = d := by
  simp [Json.get, findMember_pair_data]

theorem get_pair_meta (d m : Json) :
    (Json.object [("data", d), ("meta", m)]).get "meta" = m := by
  simp [Json.get, findMember_pair_meta]

theorem has_pair_data (d m : Json) :
    (Json.object [("data", d), ("meta", m)]).has "data" = true := by
  simp [Json.has, findMember_pair_data]

theorem extractElements_id (pp : RolesPermitted) :
    ∀ l : List Json,
      (∀ e ∈ l, (∀ pp2, extractData pp2 e ∅ = e) ∧ e.isInvalid = false) →
      extractElements pp l ∅ = l := by
  intro l
  induction l with
  | nil => intro _; rw [extractElements]
  | cons e rest ih =>
      intro h
      have he := h e (List.mem_cons_self e rest)
      rw [extractElements]
      simp only [he.1 pp, he.2]
      rw [ih (fun x hx => h x (List.mem_cons_of_mem _ hx))]
      simp

theorem extractMembers_id (pp : RolesPermitted) :
    ∀ l : List (String × Json),
      (∀ kv ∈ l, (∀ pp2, extractData pp2 kv.2 ∅ = kv.2) ∧ kv.2.isInvalid = false) →
      extractMembers pp l ∅ = l := by
  intro l
  induction l with
  | nil => intro _; rw [extractMembers]
  | cons kv rest ih =>
      obtain ⟨k, v⟩ := kv
      intro h
      have hv := h (k, v) (List.mem_cons_self _ rest)
      rw [extractMembers]
      simp only [hv.1 pp, hv.2]
      rw [ih (fun x hx => h x (List.mem_cons_of_mem _ hx))]
      simp

/-- Projection under the empty (admin) role set is the identity on
well-formed documents, for every accumulated `RolesPermitted`. -/
theorem extract_empty_roles_id :
    ∀ j : Json, wf j = true →
      (∀ pp, extractDataNoMeta pp j ∅ = j) ∧ (∀ pp, extractData pp j ∅ = j) := by
  intro j
  induction j using Json.inductionOn with
  | hinv => intro h; simp [wf] at h
  | hnull =>
      intro _
      have hA : ∀ pp, extractDataNoMeta pp .null ∅ = .null := by
        intro pp
        rw [extractDataNoMeta]
        · simp [rolePermitted_empty]
        · simp
        · simp
      refine ⟨hA, fun pp => ?_⟩
      rw [extractData]
      simp [Json.has, hA]
  | hbool b =>
      intro _
      have hA : ∀ pp, extractDataNoMeta pp (.boolean b) ∅ = .boolean b := by
        intro pp
        rw [extractDataNoMeta]
        · simp [rolePermitted_empty]
        · simp
        · simp
      refine ⟨hA, fun pp => ?_⟩
      rw [extractData]
      simp [Json.has, hA]
  | hnum n =>
      intro _
      have hA : ∀ pp, extractDataNoMeta pp (.number n) ∅ = .number n := by
        intro pp
        rw [extractDataNoMeta]
        · simp [rolePermitted_empty]
        · simp
        · simp
      refine ⟨hA, fun pp => ?_⟩
      rw [extractData]
      simp [Json.has, hA]
  | hstr t =>
      intro _
      have hA : ∀ pp, extractDataNoMeta pp (.string t) ∅ = .string t := by
        intro pp
        rw [extractDataNoMeta]
        · simp [rolePermitted_empty]
        · simp
        · simp
      refine ⟨hA, fun pp => ?_⟩
      rw [extractData]
      simp [Json.has, hA]
  | harr es ih =>
      intro h
      rw [wf] at h
      have hptwise : ∀ e ∈ es, (∀ pp2, extractData pp2 e ∅ = e) ∧ e.isInvalid = false :=
        fun e he => ⟨(ih e he (wfElements_mem h e he)).2,
          wf_not_invalid (wfElements_mem h e he)⟩
      have hA : ∀ pp, extractDataNoMeta pp (.array es) ∅ = .array es := by
        intro pp
        rw [extractDataNoMeta]
        simp [rolePermitted_empty, extractElements_id pp es hptwise]
      refine ⟨hA, fun pp => ?_⟩
      rw [extractData]
      simp [Json.has, hA]
  | hobj l ih =>
      intro h
      rw [wf] at h
      by_cases hd : (Json.findMember l "data").isSome = true
      · rw [if_pos hd] at h
        obtain ⟨d, m, rfl, hwd, hwm⟩ := wfPolicyPair_shape h
        have ihd := ih ("data", d) (by simp) hwd
        have ihm := ih ("meta", m) (by simp) hwm
        have hptwise : ∀ kv ∈ [("data", d), ("meta", m)],
            (∀ pp2, extractData pp2 kv.2 ∅ = kv.2) ∧ kv.2.isInvalid = false := by
          intro kv hkv
          rcases List.mem_cons.mp hkv with rfl | hkv
          · exact ⟨ihd.2, wf_not_invalid hwd⟩
          · rcases List.mem_cons.mp hkv with rfl | hkv
            · exact ⟨ihm.2, wf_not_invalid hwm⟩
            · cases hkv
        have hA : ∀ pp, extractDataNoMeta pp (.object [("data", d), ("meta", m)]) ∅ =
            .object [("data", d), ("meta", m)] := by
          intro pp
          rw [extractDataNoMeta]
          simp [rolePermitted_empty, extractMembers_id pp _ hptwise]
        refine ⟨hA, fun pp => ?_⟩
        rw [extractData]
        rw [dif_pos (has_pair_data d m)]
        rw [get_pair_data, get_pair_meta]
        simp [rolePermitted_empty, ihd.1, ihm.1]
      · rw [if_neg hd] at h
        have hptwise : ∀ kv ∈ l,
            (∀ pp2, extractData pp2 kv.2 ∅ = kv.2) ∧ kv.2.isInvalid = false :=
          fun kv hkv => ⟨(ih kv hkv (wfMembers_mem h kv hkv)).2,
            wf_not_invalid (wfMembers_mem h kv hkv)⟩
        have hA : ∀ pp, extractDataNoMeta pp (.object l) ∅ = .object l := by
          intro pp
          rw [extractDataNoMeta]
          simp [rolePermitted_empty, extractMembers_id pp l hptwise]
        refine ⟨hA, fun pp => ?_⟩
        rw [extractData]
        have hhas : (Json.object l).has "data" = false := by
          simp [Json.has]
          simpa using hd
        simp [hhas, hA]

/-- C2 counterexample: the claim says `GetData(p, ∅)` returns the full
subtree at `p` unchanged for *every* document; but on a policy node
carrying an extra sibling key the projection keeps only the `data` and
`meta` members, so the result differs from the subtree. -/
theorem getData_admin_not_identity :
    getData (.object [("s", .object [("data", .number 1), ("meta", .object []),
        ("extra", .number 2)])]) [] ∅ ≠
      subtreeAt (.object [("s", .object [("data", .number 1), ("meta", .object []),
        ("extra", .number 2)])]) [] := by
  have h1 : getData (.object [("s", .object [("data", .number 1), ("meta", .object []),
      ("extra", .number 2)])]) [] ∅ =
      .object [("s", .object [("data", .number 1), ("meta", .object [])])] := by
    simp [getData, descendTree, extractData, extractDataNoMeta, extractMembers,
      extractElements, Json.has, Json.findMember, rolePermitted, Json.isInvalid,
      updateRoles, Json.get]
  have h2 : subtreeAt (.object [("s", .object [("data", .number 1), ("meta", .object []),
      ("extra", .number 2)])]) [] =
      .object [("s", .object [("data", .number 1), ("meta", .object []),
        ("extra", .number 2)])] := rfl
  rw [h1, h2]
  simp

/-- C2 (amended): for every document and path whose subtree is well-formed
(no invalid values, and every policy node consists of exactly the members
`data` and `meta`), `Store::GetData(path, ∅)` returns the subtree at the
path unchanged — the empty held-role set passes every `RolePermitted` check
and nothing is redacted. -/
theorem getData_admin_returns_subtree (store : Json) (path : List String)
    (h : wf (subtreeAt store path) = true) :
    getData store path ∅ = subtreeAt store path := by
  have hid := (extract_empty_roles_id (subtreeAt store path) h).2
    (descendTree {} store path).1
  have hni := wf_not_invalid h
  simp only [subtreeAt] at hid hni
  simp only [getData, hid, hni]
  simp [subtreeAt]

/-- C2 witness: the amended statement on a concrete store holding one
well-formed policy node. -/
theorem getData_admin_returns_subtree_witness :
    getData (.object [("Thing", .object [("data", .number 1), ("meta", .object [])])])
        ["Thing"] ∅ =
      subtreeAt (.object [("Thing", .object [("data", .number 1),
        ("meta", .object [])])]) ["Thing"] :=
  getData_admin_returns_subtree _ _ (by
    simp [wf, wfElements, wfMembers, wfPolicyPair, subtreeAt, descendTree,
      Json.has, Json.get, Json.findMember])

/-! ## C3: monotonicity of access -/

theorem rolePermitted_mono {held held2 : RoleSet} (hne : held.Nonempty)
    (hsub : held ⊆ held2) {P : RoleSet} (h : rolePermitted P held = true) :
    rolePermitted P held2 = true := by
  rw [rolePermitted] at h ⊢
  rw [if_neg (Finset.nonempty_iff_ne_empty.mp hne)] at h
  simp at h
  obtain ⟨r, hrP, hrh⟩ := h
  by_cases h2 : held2 = ∅
  · rw [if_pos h2]
  · rw [if_neg h2]
    simp
    exact ⟨r, hrP, hsub hrh⟩

theorem sub_invalid_left (y : Json) : sub .invalid y = true := by
  rw [sub]
  have : subMain .invalid y = true := by rw [subMain]
  simp [this]

theorem sub_refl_scalar {j : Json}
    (h : j = .null ∨ (∃ b, j = .boolean b) ∨ (∃ n, j = .number n) ∨
      (∃ t, j = .string t)) : sub j j = true := by
  rcases h with rfl | ⟨b, rfl⟩ | ⟨n, rfl⟩ | ⟨t, rfl⟩ <;>
    · rw [sub]
      simp [subMain]

theorem subList_nil (ys : List Json) : subList [] ys = true := by
  rw [subList]

theorem subList_cons_right {xs ys : List Json} (y : Json)
    (h : subList xs ys = true) : subList xs (y :: ys) = true := by
  cases xs with
  | nil => exact subList_nil _
  | cons x xs2 =>
      rw [subList]
      simp [h]

theorem subList_cons_both {x y : Json} {xs ys : List Json}
    (h1 : sub x y = true) (h2 : subList xs ys = true) :
    subList (x :: xs) (y :: ys) = true := by
  rw [subList]
  simp [h1, h2]

theorem subAtKey_some {ys : List (String × Json)} {k : String} {w : Json}
    (h : Json.findMember ys k = some w) (v : Json) :
    subAtKey ys k v = sub v w := by
  rw [subAtKey]
  split
  · rename_i w2 h2
    rw [h] at h2
    injection h2 with h2
    rw [h2]
  · rename_i h2
    rw [h] at h2
    cases h2

theorem subAtKey_cons_ne {k k2 : String} (hne : ¬(k = k2)) (w : Json)
    (ys : List (String × Json)) (v : Json) :
    subAtKey ((k, w) :: ys) k2 v = subAtKey ys k2 v := by
  have hfm : Json.findMember ((k, w) :: ys) k2 = Json.findMember ys k2 := by
    rw [Json.findMember, if_neg hne]
  rw [subAtKey]
  split
  · rename_i w2 h2
    rw [hfm] at h2
    rw [subAtKey_some h2]
  · rename_i h2
    rw [hfm] at h2
    rw [subAtKey]
    split
    · rename_i w2 h3
      rw [h2] at h3
      cases h3
    · rfl

theorem subMembers_nil (ys : List (String × Json)) : subMembers [] ys = true := by
  rw [subMembers]

theorem subMembers_cons_right {xs ys : List (String × Json)} {k : String}
    (w : Json) (hk : ∀ kv ∈ xs, kv.1 ≠ k) (h : subMembers xs ys = true) :
    subMembers xs ((k, w) :: ys) = true := by
  induction xs with
  | nil => exact subMembers_nil _
  | cons kv rest ih =>
      obtain ⟨k2, v2⟩ := kv
      rw [subMembers] at h ⊢
      simp at h ⊢
      have hne : ¬(k = k2) := fun he => hk (k2, v2) (List.mem_cons_self _ _) (by rw [he])
      rw [subAtKey_cons_ne hne]
      exact ⟨h.1, ih (fun e he => hk e (List.mem_cons_of_mem _ he)) h.2⟩

theorem subMembers_cons_both {k : String} {x y : Json}
    {xs ys : List (String × Json)}
    (h1 : x.isInvalid = true ∨ sub x y = true)
    (h2 : subMembers xs ((k, y) :: ys) = true) :
    subMembers ((k, x) :: xs) ((k, y) :: ys) = true := by
  rw [subMembers]
  simp
  refine ⟨?_, h2⟩
  rcases h1 with h1 | h1
  · exact Or.inl h1
  · right
    rw [subAtKey_some (by rw [Json.findMember, if_pos rfl])]
    exact h1

theorem extractDataNoMeta_invalid (pp : RolesPermitted) (held : RoleSet) :
    extractDataNoMeta pp .invalid held = .invalid := by
  rw [extractDataNoMeta]
  · simp
  · simp
  · simp

theorem extractData_invalid (pp : RolesPermitted) (held : RoleSet) :
    extractData pp .invalid held = .invalid := by
  rw [extractData]
  simp [Json.has, extractDataNoMeta_invalid]

theorem nodupKeysElements_mem {es : List Json} (h : nodupKeysElements es = true) :
    ∀ e ∈ es, nodupKeys e = true := by
  induction es with
  | nil => intro e he; cases he
  | cons x xs ih =>
      rw [nodupKeysElements] at h
      simp at h
      intro e he
      rcases List.mem_cons.mp he with rfl | he
      · exact h.1
      · exact ih (by simpa using h.2) e he

theorem nodupKeysMembers_mem {l : List (String × Json)}
    (h : nodupKeysMembers l = true) : ∀ kv ∈ l, nodupKeys kv.2 = true := by
  induction l with
  | nil => intro kv hkv; cases hkv
  | cons x xs ih =>
      obtain ⟨k, v⟩ := x
      rw [nodupKeysMembers] at h
      simp at h
      intro kv hkv
      rcases List.mem_cons.mp hkv with rfl | hkv
      · exact h.1
      · exact ih (by simpa using h.2) kv hkv

theorem nodupKeys_object {l : List (String × Json)}
    (h : nodupKeys (.object l) = true) :
    (l.map Prod.fst).Nodup ∧ nodupKeysMembers l = true := by
  rw [nodupKeys] at h
  simpa using h

theorem extractMembers_keys (pp : RolesPermitted) (held : RoleSet) :
    ∀ l : List (String × Json), ∀ kv ∈ extractMembers pp l held,
      kv.1 ∈ l.map Prod.fst := by
  intro l
  induction l with
  | nil =>
      rw [extractMembers]
      intro kv hkv
      cases hkv
  | cons x rest ih =>
      obtain ⟨k, v⟩ := x
      rw [extractMembers]
      intro kv hkv
      by_cases hinv : (extractData pp v held).isInvalid = true
      · rw [if_pos hinv] at hkv
        exact List.mem_cons_of_mem _ (ih kv hkv)
      · rw [if_neg hinv] at hkv
        rcases List.mem_cons.mp hkv with rfl | hkv
        · simp
        · exact List.mem_cons_of_mem _ (ih kv hkv)

theorem extractElements_mono (pp : RolesPermitted) (held held2 : RoleSet) :
    ∀ l : List Json,
      (∀ e ∈ l,
        ((extractData pp e held).isInvalid = false →
          (extractData pp e held2).isInvalid = false) ∧
        sub (extractData pp e held) (extractData pp e held2) = true) →
      subList (extractElements pp l held) (extractElements pp l held2) = true := by
  intro l
  induction l with
  | nil =>
      intro _
      rw [extractElements, extractElements]
      exact subList_nil _
  | cons e rest ih =>
      intro hpt
      have he := hpt e (List.mem_cons_self _ _)
      have hr := ih (fun x hx => hpt x (List.mem_cons_of_mem _ hx))
      simp only [extractElements]
      by_cases hx : (extractData pp e held).isInvalid = true
      · rw [if_pos hx]
        by_cases hy : (extractData pp e held2).isInvalid = true
        · rw [if_pos hy]
          exact hr
        · rw [if_neg hy]
          exact subList_cons_right _ hr
      · rw [if_neg hx]
        have hy : ¬((extractData pp e held2).isInvalid = true) := by
          simp [he.1 (by simpa using hx)]
        rw [if_neg hy]
        exact subList_cons_both he.2 hr

theorem extractMembers_mono (pp : RolesPermitted) (held held2 : RoleSet) :
    ∀ l : List (String × Json), (l.map Prod.fst).Nodup →
      (∀ kv ∈ l,
        ((extractData pp kv.2 held).isInvalid = false →
          (extractData pp kv.2 held2).isInvalid = false) ∧
        sub (extractData pp kv.2 held) (extractData pp kv.2 held2) = true) →
      subMembers (extractMembers pp l held) (extractMembers pp l held2) = true ∧
      ((extractMembers pp l held).isEmpty = false →
        (extractMembers pp l held2).isEmpty = false) := by
  intro l
  induction l with
  | nil =>
      intro _ _
      rw [extractMembers]
      exact ⟨subMembers_nil _, by intro h; simp at h⟩
  | cons x rest ih =>
      obtain ⟨k, v⟩ := x
      intro hnd hpt
      have hnd3 : (k :: rest.map Prod.fst).Nodup := by simpa using hnd
      have hk : k ∉ rest.map Prod.fst := (List.nodup_cons.mp hnd3).1
      have hndr : (rest.map Prod.fst).Nodup := (List.nodup_cons.mp hnd3).2
      have hv := hpt (k, v) (List.mem_cons_self _ _)
      have hr := ih hndr (fun e he => hpt e (List.mem_cons_of_mem _ he))
      have hkeys : ∀ kv ∈ extractMembers pp rest held, kv.1 ≠ k := by
        intro kv hkv he
        apply hk
        rw [← he]
        exact extractMembers_keys pp held rest kv hkv
      simp only [extractMembers]
      by_cases hx : (extractData pp v held).isInvalid = true
      · rw [if_pos hx]
        by_cases hy : (extractData pp v held2).isInvalid = true
        · rw [if_pos hy]
          exact hr
        · rw [if_neg hy]
          refine ⟨subMembers_cons_right _ hkeys hr.1, ?_⟩
          intro _
          simp
      · rw [if_neg hx]
        have hy : ¬((extractData pp v held2).isInvalid = true) := by
          simp [hv.1 (by simpa using hx)]
        rw [if_neg hy]
        refine ⟨?_, ?_⟩
        · exact subMembers_cons_both (Or.inr hv.2)
            (subMembers_cons_right _ hkeys hr.1)
        · intro _
          simp

theorem subMembers_pair {Ld Rd Lm Rm : Json}
    (h1 : Ld.isInvalid = true ∨ sub Ld Rd = true)
    (h2 : Lm.isInvalid = true ∨ sub Lm Rm = true) :
    subMembers [("data", Ld), ("meta", Lm)] [("data", Rd), ("meta", Rm)] = true := by
  rw [subMembers]
  simp
  constructor
  · rcases h1 with h1 | h1
    · exact Or.inl h1
    · right
      rw [subAtKey_some (findMember_pair_data Rd Rm)]
      exact h1
  · rw [subMembers]
    simp [subMembers_nil]
    rcases h2 with h2 | h2
    · exact Or.inl h2
    · right
      rw [subAtKey_some (findMember_pair_meta Rd Rm)]
      exact h2

theorem subWrap_pair (x Rd Rm : Json) :
    subWrap x (.object [("data", Rd), ("meta", Rm)]) = sub x Rd := by
  rw [subWrap]

theorem extractDataNoMeta_default (pp : RolesPermitted) (held : RoleSet)
    (j : Json)
    (h1 : ∀ es, j = Json.array es → False)
    (h2 : ∀ l, j = Json.object l → False) :
    extractDataNoMeta pp j held =
      if rolePermitted pp.readData held then j else .invalid := by
  rw [extractDataNoMeta]
  · exact h1
  · exact h2

theorem extractData_not_policy (pp : RolesPermitted) (held : RoleSet)
    (j : Json) (h : j.has "data" = false) :
    extractData pp j held = extractDataNoMeta pp j held := by
  rw [extractData, dif_neg (by simp [h])]

theorem extractData_policy (pp : RolesPermitted) (held : RoleSet)
    (j : Json) (h : j.has "data" = true) :
    extractData pp j held =
      if rolePermitted (updateRoles pp (j.get "meta")).readMeta held then
        .object [
          ("data", extractDataNoMeta (updateRoles pp (j.get "meta")) (j.get "data") held),
          ("meta", extractDataNoMeta (updateRoles pp (j.get "meta")) (j.get "meta") held)]
      else extractDataNoMeta (updateRoles pp (j.get "meta")) (j.get "data") held := by
  rw [extractData, dif_pos h]

/-- Monotonicity of the projection for one non-container value. -/
theorem extract_mono_scalar {held held2 : RoleSet} (hne : held.Nonempty)
    (hsub : held ⊆ held2) (j : Json)
    (h1 : ∀ es, j = Json.array es → False)
    (h2 : ∀ l, j = Json.object l → False)
    (hrefl : sub j j = true) (pp : RolesPermitted) :
    (((extractDataNoMeta pp j held).isInvalid = false →
        (extractDataNoMeta pp j held2).isInvalid = false) ∧
      sub (extractDataNoMeta pp j held) (extractDataNoMeta pp j held2) = true) ∧
    (((extractData pp j held).isInvalid = false →
        (extractData pp j held2).isInvalid = false) ∧
      sub (extractData pp j held) (extractData pp j held2) = true) := by
  have hhas : j.has "data" = false := by
    cases j <;> first
      | exact (h1 _ rfl).elim
      | exact (h2 _ rfl).elim
      | simp [Json.has]
  have hL := extractDataNoMeta_default pp held j h1 h2
  have hR := extractDataNoMeta_default pp held2 j h1 h2
  have hA : ((extractDataNoMeta pp j held).isInvalid = false →
      (extractDataNoMeta pp j held2).isInvalid = false) ∧
      sub (extractDataNoMeta pp j held) (extractDataNoMeta pp j held2) = true := by
    by_cases hp : rolePermitted pp.readData held = true
    · have hp2 := rolePermitted_mono hne hsub hp
      rw [hL, hR, if_pos hp, if_pos hp2]
      exact ⟨fun h => h, hrefl⟩
    · rw [hL, if_neg hp]
      constructor
      · intro hcontra
        simp [Json.isInvalid] at hcontra
      · exact sub_invalid_left _
  refine ⟨hA, ?_⟩
  rw [extractData_not_policy pp held j hhas, extractData_not_policy pp held2 j hhas]
  exact hA

/-- Monotonicity of the projection: growing the held role set can only grow
the emitted projection (in the `sub` sense), and never turns a valid
projection invalid. -/
theorem extract_mono (held held2 : RoleSet) (hne : held.Nonempty)
    (hsub : held ⊆ held2) :
    ∀ j : Json, nodupKeys j = true → ∀ pp : RolesPermitted,
      (((extractDataNoMeta pp j held).isInvalid = false →
          (extractDataNoMeta pp j held2).isInvalid = false) ∧
        sub (extractDataNoMeta pp j held) (extractDataNoMeta pp j held2) = true) ∧
      (((extractData pp j held).isInvalid = false →
          (extractData pp j held2).isInvalid = false) ∧
        sub (extractData pp j held) (extractData pp j held2) = true) := by
  intro j
  induction j using Json.inductionOn with
  | hinv =>
      intro _ pp
      constructor
      · constructor
        · intro hcontra
          rw [extractDataNoMeta_invalid] at hcontra
          simp [Json.isInvalid] at hcontra
        · rw [extractDataNoMeta_invalid, extractDataNoMeta_invalid]
          exact sub_invalid_left _
      · constructor
        · intro hcontra
          rw [extractData_invalid] at hcontra
          simp [Json.isInvalid] at hcontra
        · rw [extractData_invalid, extractData_invalid]
          exact sub_invalid_left _
  | hnull =>
      intro _ pp
      exact extract_mono_scalar hne hsub _ (fun _ h => Json.noConfusion h)
        (fun _ h => Json.noConfusion h) (sub_refl_scalar (Or.inl rfl)) pp
  | hbool b =>
      intro _ pp
      exact extract_mono_scalar hne hsub _ (fun _ h => Json.noConfusion h)
        (fun _ h => Json.noConfusion h)
        (sub_refl_scalar (Or.inr (Or.inl ⟨b, rfl⟩))) pp
  | hnum n =>
      intro _ pp
      exact extract_mono_scalar hne hsub _ (fun _ h => Json.noConfusion h)
        (fun _ h => Json.noConfusion h)
        (sub_refl_scalar (Or.inr (Or.inr (Or.inl ⟨n, rfl⟩)))) pp
  | hstr t =>
      intro _ pp
      exact extract_mono_scalar hne hsub _ (fun _ h => Json.noConfusion h)
        (fun _ h => Json.noConfusion h)
        (sub_refl_scalar (Or.inr (Or.inr (Or.inr ⟨t, rfl⟩)))) pp
  | harr es ih =>
      intro hnd pp
      rw [nodupKeys] at hnd
      have hpt : ∀ e ∈ es,
          ((extractData pp e held).isInvalid = false →
            (extractData pp e held2).isInvalid = false) ∧
          sub (extractData pp e held) (extractData pp e held2) = true :=
        fun e he => (ih e he (nodupKeysElements_mem hnd e he) pp).2
      have hA : ((extractDataNoMeta pp (.array es) held).isInvalid = false →
          (extractDataNoMeta pp (.array es) held2).isInvalid = false) ∧
          sub (extractDataNoMeta pp (.array es) held)
            (extractDataNoMeta pp (.array es) held2) = true := by
        simp only [extractDataNoMeta]
        by_cases hp : rolePermitted pp.readData held = true
        · have hp2 := rolePermitted_mono hne hsub hp
          rw [if_pos hp, if_pos hp2]
          constructor
          · intro _
            simp [Json.isInvalid]
          · rw [sub]
            have hm : subMain (.array (extractElements pp es held))
                (.array (extractElements pp es held2)) =
                subList (extractElements pp es held) (extractElements pp es held2) := by
              rw [subMain]
            simp [hm, extractElements_mono pp held held2 es hpt]
        · rw [if_neg hp]
          constructor
          · intro hcontra
            simp [Json.isInvalid] at hcontra
          · exact sub_invalid_left _
      refine ⟨hA, ?_⟩
      have hhas : (Json.array es).has "data" = false := by simp [Json.has]
      rw [extractData_not_policy pp held _ hhas, extractData_not_policy pp held2 _ hhas]
      exact hA
  | hobj l ih =>
      intro hnd pp
      obtain ⟨hndk, hndm⟩ := nodupKeys_object hnd
      have hA : ∀ pq : RolesPermitted,
          ((extractDataNoMeta pq (.object l) held).isInvalid = false →
            (extractDataNoMeta pq (.object l) held2).isInvalid = false) ∧
          sub (extractDataNoMeta pq (.object l) held)
            (extractDataNoMeta pq (.object l) held2) = true := by
        intro pq
        have hpt : ∀ kv ∈ l,
            ((extractData pq kv.2 held).isInvalid = false →
              (extractData pq kv.2 held2).isInvalid = false) ∧
            sub (extractData pq kv.2 held) (extractData pq kv.2 held2) = true :=
          fun kv hkv => (ih kv hkv (nodupKeysMembers_mem hndm kv hkv) pq).2
        obtain ⟨hsubm, hemp⟩ := extractMembers_mono pq held held2 l hndk hpt
        simp only [extractDataNoMeta]
        by_cases hc : (rolePermitted pq.readData held ||
            !(extractMembers pq l held).isEmpty) = true
        · have hc2 : (rolePermitted pq.readData held2 ||
              !(extractMembers pq l held2).isEmpty) = true := by
            have hc3 := hc
            rw [Bool.or_eq_true] at hc3
            rcases hc3 with h | h
            · simp [rolePermitted_mono hne hsub h]
            · simp at h
              have hx : (extractMembers pq l held).isEmpty = false := by
                simpa [List.isEmpty_iff] using h
              have hy := hemp hx
              simp [hy]
          rw [if_pos hc, if_pos hc2]
          constructor
          · intro _
            simp [Json.isInvalid]
          · rw [sub]
            have hm : subMain (.object (extractMembers pq l held))
                (.object (extractMembers pq l held2)) =
                subMembers (extractMembers pq l held) (extractMembers pq l held2) := by
              rw [subMain]
            simp [hm, hsubm]
        · rw [if_neg hc]
          constructor
          · intro hcontra
            simp [Json.isInvalid] at hcontra
          · exact sub_invalid_left _
      refine ⟨hA pp, ?_⟩
      by_cases hd : (Json.object l).has "data" = true
      · have hdm : (Json.findMember l "data").isSome = true := by
          simpa [Json.has] using hd
        obtain ⟨d, hfd⟩ := Option.isSome_iff_exists.mp hdm
        have hgd : (Json.object l).get "data" = d := by simp [Json.get, hfd]
        have hdmem : ("data", d) ∈ l := Json.mem_of_findMember hfd
        have hdnd : nodupKeys d = true := nodupKeysMembers_mem hndm _ hdmem
        set ipp := updateRoles pp ((Json.object l).get "meta") with hipp
        have dFacts : ((extractDataNoMeta ipp d held).isInvalid = false →
              (extractDataNoMeta ipp d held2).isInvalid = false) ∧
            sub (extractDataNoMeta ipp d held) (extractDataNoMeta ipp d held2) = true :=
          (ih ("data", d) hdmem hdnd ipp).1
        have hmOr : (extractDataNoMeta ipp ((Json.object l).get "meta") held).isInvalid
              = true ∨
            sub (extractDataNoMeta ipp ((Json.object l).get "meta") held)
              (extractDataNoMeta ipp ((Json.object l).get "meta") held2) = true := by
          cases hfm : Json.findMember l "meta" with
          | some m =>
              have hgm : (Json.object l).get "meta" = m := by simp [Json.get, hfm]
              have hmmem : ("meta", m) ∈ l := Json.mem_of_findMember hfm
              have hmnd := nodupKeysMembers_mem hndm _ hmmem
              rw [hgm]
              exact Or.inr (ih ("meta", m) hmmem hmnd ipp).1.2
          | none =>
              have hgm : (Json.object l).get "meta" = .invalid := by
                simp [Json.get, hfm]
              rw [hgm, extractDataNoMeta_invalid]
              exact Or.inl rfl
        rw [extractData_policy pp held _ hd, extractData_policy pp held2 _ hd]
        rw [← hipp]
        rw [hgd]
        by_cases hr : rolePermitted ipp.readMeta held = true
        · have hr2 := rolePermitted_mono hne hsub hr
          rw [if_pos hr, if_pos hr2]
          constructor
          · intro _
            simp [Json.isInvalid]
          · rw [sub]
            have hm := subMembers_pair (Or.inr dFacts.2) hmOr
            have hmain : subMain
                (.object [("data", extractDataNoMeta ipp d held),
                  ("meta", extractDataNoMeta ipp ((Json.object l).get "meta") held)])
                (.object [("data", extractDataNoMeta ipp d held2),
                  ("meta", extractDataNoMeta ipp ((Json.object l).get "meta") held2)]) =
                subMembers
                  [("data", extractDataNoMeta ipp d held),
                    ("meta", extractDataNoMeta ipp ((Json.object l).get "meta") held)]
                  [("data", extractDataNoMeta ipp d held2),
                    ("meta", extractDataNoMeta ipp ((Json.object l).get "meta") held2)] := by
              rw [subMain]
            simp [hmain, hm]
        · by_cases hr2 : rolePermitted ipp.readMeta held2 = true
          · rw [if_neg hr, if_pos hr2]
            constructor
            · intro _
              simp [Json.isInvalid]
            · rw [sub]
              rw [subWrap_pair]
              simp [dFacts.2]
          · rw [if_neg hr, if_neg hr2]
            exact dFacts
      · have hd2 : (Json.object l).has "data" = false := by simpa using hd
        rw [extractData_not_policy pp held _ hd2, extractData_not_policy pp held2 _ hd2]
        exact hA pp

theorem nodupKeys_invalid : nodupKeys .invalid = true := by
  rw [nodupKeys]
  · intro _ h
    cases h
  · intro _ h
    cases h

theorem nodupKeys_get {j : Json} (h : nodupKeys j = true) (k : String) :
    nodupKeys (j.get k) = true := by
  cases j with
  | object l =>
      rw [Json.get]
      cases hv : Json.findMember l k with
      | some v =>
          exact nodupKeysMembers_mem (nodupKeys_object h).2 _ (Json.mem_of_findMember hv)
      | none => exact nodupKeys_invalid
  | invalid => exact nodupKeys_invalid
  | null => exact nodupKeys_invalid
  | boolean b => exact nodupKeys_invalid
  | number n => exact nodupKeys_invalid
  | string t => exact nodupKeys_invalid
  | array es => exact nodupKeys_invalid

theorem nodupKeys_descend (store : Json) (path : List String)
    (h : nodupKeys store = true) :
    ∀ pp : RolesPermitted, nodupKeys (descendTree pp store path).2 = true := by
  induction path generalizing store with
  | nil =>
      intro pp
      rw [descendTree]
      exact h
  | cons key rest ih =>
      intro pp
      rw [descendTree]
      by_cases hd : store.has "data" = true
      · rw [if_pos hd]
        exact ih _ (nodupKeys_get (nodupKeys_get h "data") key) _
      · rw [if_neg hd]
        exact ih _ (nodupKeys_get h key) _

/-- C3 counterexample: the claim quantifies over *all* role sets `R ⊆ R'`,
but the empty role set is the administrative top, not the bottom: with
`R = ∅ ⊆ R' = {"x"}` the admin projection of `{"a": 1}` is the whole
document while the `{"x"}` projection redacts everything (`GetData` returns
null), so the leaf `a = 1` emitted for `R` appears nowhere in the
projection for `R'`. -/
theorem projectData_not_monotone_from_empty :
    ((∅ : RoleSet) ⊆ {"x"}) ∧
    sub (projectData (.object [("a", .number 1)]) [] ∅)
      (projectData (.object [("a", .number 1)]) [] {"x"}) = false ∧
    getData (.object [("a", .number 1)]) [] ∅ = .object [("a", .number 1)] ∧
    getData (.object [("a", .number 1)]) [] {"x"} = .null := by
  have h1 : projectData (.object [("a", .number 1)]) [] ∅ =
      .object [("a", .number 1)] := by
    simp [projectData, descendTree, extractData, extractDataNoMeta, extractMembers,
      Json.has, Json.findMember, rolePermitted, Json.isInvalid, Json.get]
  have h2 : projectData (.object [("a", .number 1)]) [] {"x"} = .invalid := by
    simp [projectData, descendTree, extractData, extractDataNoMeta, extractMembers,
      Json.has, Json.findMember, rolePermitted, Json.isInvalid, Json.get]
  refine ⟨Finset.empty_subset _, ?_, ?_, ?_⟩
  · rw [h1, h2]
    simp [sub, subMain, subWrap]
  · have hg : getData (.object [("a", .number 1)]) [] ∅ =
        if (projectData (.object [("a", .number 1)]) [] ∅).isInvalid then Json.null
        else projectData (.object [("a", .number 1)]) [] ∅ := rfl
    rw [hg, h1]
    simp [Json.isInvalid]
  · have hg : getData (.object [("a", .number 1)]) [] {"x"} =
        if (projectData (.object [("a", .number 1)]) [] {"x"}).isInvalid then Json.null
        else projectData (.object [("a", .number 1)]) [] {"x"} := rfl
    rw [hg, h2]
    simp [Json.isInvalid]

/-- C3 (amended): for every document whose objects have no duplicate keys,
every path, and every *non-empty* role set `R ⊆ R'`, the projection for `R`
is a structural subset of the projection for `R'` (`sub`): every leaf
emitted for `R` is present in the projection for `R'` at the corresponding
position — objects matched by key, arrays as an order-preserving
subsequence, and leaves matching transparently through a `{data, meta}`
policy wrapper the richer projection may emit.  (`R = ∅` is excluded: the
empty set is the administrative bypass, for which monotonicity fails, as
`projectData_not_monotone_from_empty` shows.) -/
theorem projectData_monotone (store : Json) (path : List String)
    (held held2 : RoleSet) (hnodup : nodupKeys store = true)
    (hne : held.Nonempty) (hsub : held ⊆ held2) :
    sub (projectData store path held) (projectData store path held2) = true := by
  have hnd := nodupKeys_descend store path hnodup {}
  have h := (extract_mono held held2 hne hsub (descendTree {} store path).2 hnd
    (descendTree {} store path).1).2.2
  simpa [projectData] using h

/-- C3 witness: the amended statement on a concrete policy document with
`{"x"} ⊆ {"x","y"}`. -/
theorem projectData_monotone_witness :
    sub
      (projectData (.object [("Thing", .object [("data", .number 1),
        ("meta", .object [("require", .object [("read_data", .array [.string "x"]),
          ("read_meta", .array [.string "y"])])])])]) [] {"x"})
      (projectData (.object [("Thing", .object [("data", .number 1),
        ("meta", .object [("require", .object [("read_data", .array [.string "x"]),
          ("read_meta", .array [.string "y"])])])])]) [] ({"x", "y"} : RoleSet)) = true :=
  projectData_monotone _ _ _ _
    (by simp [nodupKeys, nodupKeysMembers, nodupKeysElements])
    (by simp)
    (by intro a ha; simp at ha; simp [ha])

end Alfred
